import Mathlib

/-!
# Verification of `tree_insert_destructive.c`

A shallow embedding of the binary-search-tree micro-benchmark
`microbench/oopsla_2022_litmus/tree_insert_destructive.c`.

* A `Tree *` is a value of `Tree`; `Tree.nil` is the `NULL` pointer.
* A C function that updates the nodes it is given in place and hands the same pointer
  back is embedded as a function returning the updated tree.
* `int` values are mathematical integers; the arithmetic operations of the file that can
  leave the `int` range (`+` in `sumTreeHelper`; `-`, `+` in `helper`) are reduced with
  `wrapInt` (32-bit wrap-around), as is a `long int` passed for an `int` parameter; the
  `long int` operations of `power` and `main` are reduced with `wrapLong` (64 bit).
  Comparisons need no reduction.
* The text written by `printTreeHelper` is the list of its characters.
* A call has a result of type `Except Fault _`: it either hands a value to its caller or
  stops with one of the faults below.
* Two functions of the file, `createTreeNode` and `treeDelete`, have paths that run into the
  closing brace without a `return` statement although every caller uses the value of the
  call.  C leaves that value undefined; the model records that no value is handed over
  (`Fault.noReturn`).  So that the rest of each function can still be examined, the
  functions that depend on such a path take what the caller receives there as a parameter
  (`treeInsertWith`, `helperWith`, `treeDeleteWith`); the functions under the names of the
  C file are the instances in which nothing is received.
-/

namespace TreeBench

/-- Ways in which a call fails to hand a value to its caller. -/
inductive Fault where
  -- a field of the `NULL` pointer is read or written
  | nullDeref : Fault
  -- control reaches the closing brace of a function declared to return a value without
  -- passing a `return` statement, and the caller uses the value of the call
  | noReturn : Fault
  -- the recursion budget of the model is used up (only `helper` has one)
  | outOfFuel : Fault
deriving DecidableEq

/-- The `struct Tree` of the header: an `int` payload `n` and two child pointers. -/
inductive Tree where
  | nil : Tree
  | node (left : Tree) (n : Int) (right : Tree) : Tree
deriving DecidableEq

deriving instance DecidableEq for Except

/-- Result of a call that yields a tree pointer. -/
abbrev TreeRes := Except Fault Tree

/-- Smallest value of the C type `int`. -/
def INT_MIN : Int := -2147483648

/-- Largest value of the C type `int`. -/
def INT_MAX : Int := 2147483647

/-- Reduction of a mathematical integer to the 32-bit `int` it is stored as (wrap-around). -/
def wrapInt (x : Int) : Int := (x + 2147483648) % 4294967296 - 2147483648

/-- The value is one that a C `int` can hold. -/
def isInt (x : Int) : Prop := INT_MIN ≤ x ∧ x ≤ INT_MAX

instance (x : Int) : Decidable (isInt x) := by
  unfold isInt; infer_instance

/-! ## Observations on trees -/

/-- In-order traversal: left subtree, node value, right subtree. -/
def inorder : Tree → List Int
  | .nil => []
  | .node l n r => inorder l ++ n :: inorder r

/-- Multiset of the keys stored in a tree. -/
def keys (t : Tree) : Multiset Int := (inorder t : Multiset Int)

/-- Number of nodes. -/
def size : Tree → Nat
  | .nil => 0
  | .node l _ r => size l + 1 + size r

/-- BST order: at every node the keys of the left subtree are `<` the node value and the keys
of the right subtree are `>=` it. -/
def isBST : Tree → Prop
  | .nil => True
  | .node l n r => (∀ k ∈ inorder l, k < n) ∧ (∀ k ∈ inorder r, n ≤ k) ∧ isBST l ∧ isBST r

instance isBST.decidable : (t : Tree) → Decidable (isBST t)
  | .nil => isTrue trivial
  | .node l n r =>
    have := isBST.decidable l
    have := isBST.decidable r
    by unfold isBST; infer_instance

/-- Every key of the tree is a value of the C type `int`. -/
def allInt : Tree → Prop
  | .nil => True
  | .node l n r => isInt n ∧ allInt l ∧ allInt r

instance allInt.decidable : (t : Tree) → Decidable (allInt t)
  | .nil => isTrue trivial
  | .node l n r =>
    have := allInt.decidable l
    have := allInt.decidable r
    by unfold allInt; infer_instance

/-- The list `s, s+1, ..., s+k-1`. -/
def intRange (s : Int) : Nat → List Int
  | 0 => []
  | k + 1 => s :: intRange (s + 1) k

/-! ## Node creation -/

/-- The node that lines 5-8 of `createTreeNode` allocate and fill in:
`newNode->n = n; newNode->left = NULL; newNode->right = NULL;`. -/
def newNode (n : Int) : Tree := .node .nil n .nil

/-- Function `createTreeNode` (lines 3-10).  After filling in `newNode` the body ends: there is no
`return` statement, so the value of the call, which every caller uses, is undefined. -/
def createTreeNode (n : Int) : TreeRes :=
  let _built := newNode n
  .error .noReturn

/-- What `createTreeNode` would hand back with a final `return newNode;`.  It is used only to
state how the callers of `createTreeNode` behave when the call does give them the node. -/
def createReturning (n : Int) : TreeRes := .ok (newNode n)

/-! ## Insertion -/

/-- Function `treeInsertHelper` (lines 12-51) with the node constructor it calls as a parameter.
The function is `void` and updates `root` in place; the result is the updated `root`. -/
def treeInsertHelperWith (create : Int → TreeRes) : Tree → Int → TreeRes
  | .nil, _ => .error .nullDeref
  | .node .nil n .nil, value => do
    -- leaf case
    let new ← create value
    if value < n then pure (.node new n .nil)
    else pure (.node .nil n new)
  | .node l n r, value =>
    -- non leaf case
    if value < n then
      match l with
      | .nil => do
        let new ← create value
        pure (.node new n r)
      | .node ll ln lr => do
        let l1 ← treeInsertHelperWith create (.node ll ln lr) value
        pure (.node l1 n r)
    else
      match r with
      | .nil => do
        let new ← create value
        pure (.node l n new)
      | .node rl rn rr => do
        let r1 ← treeInsertHelperWith create (.node rl rn rr) value
        pure (.node l n r1)

/-- Function `treeInsert` (lines 86-99) with the node constructor as a parameter. -/
def treeInsertWith (create : Int → TreeRes) : Tree → Int → TreeRes
  | .nil, value => do
    let new ← create value
    pure new
  | .node l n r, value => treeInsertHelperWith create (.node l n r) value

/-- Function `treeInsertHelper` as the file has it: nodes are made by `createTreeNode`. -/
def treeInsertHelper : Tree → Int → TreeRes := treeInsertHelperWith createTreeNode

/-- Function `treeInsert` as the file has it: nodes are made by `createTreeNode`. -/
def treeInsert : Tree → Int → TreeRes := treeInsertWith createTreeNode

/-! ## Deletion -/

/-- Function `findMinSuccessor` (lines 102-113): follow `left` links while the current node and its
left child are both non-`NULL`; the result is the pointer reached (`NULL` for `NULL`). -/
def findMinSuccessor : Tree → Tree
  | .nil => .nil
  | .node .nil n r => .node .nil n r
  | .node (.node ll ln lr) _ _ => findMinSuccessor (.node ll ln lr)

/-- Read of the field `n` through a pointer. -/
def readN : Tree → Except Fault Int
  | .nil => .error .nullDeref
  | .node _ n _ => .ok n

/-- Function `treeDelete` (lines 116-163) with, as a parameter, what the caller receives when control
runs into the closing brace of the function with `root` as the current node.  The only
`return root;` (line 161) is inside the `else` block of the three-way comparison, so the
two branches that recurse (lines 123-129) end at that brace. -/
def treeDeleteWith (atBrace : Tree → TreeRes) : Tree → Int → TreeRes
  | .nil, _ => .ok .nil
  | .node l n r, value =>
    if n > value then do
      let l1 ← treeDeleteWith atBrace l value
      atBrace (.node l1 n r)
    else if n < value then do
      let r1 ← treeDeleteWith atBrace r value
      atBrace (.node l n r1)
    else
      match l, r with
      | .nil, _ => .ok r
      | .node _ _ _, .nil => .ok l
      | .node _ _ _, .node _ _ _ => do
        let m ← readN (findMinSuccessor r)
        let r1 ← treeDeleteWith atBrace r m
        pure (.node l m r1)

/-- The closing brace of a function declared to return a `Tree *`, reached without a
`return` statement: the caller receives no value. -/
def noValue (_root : Tree) : TreeRes := .error .noReturn

/-- What the caller would receive if `return root;` stood in front of the closing brace.  It
is used only to state how `treeDelete` behaves apart from the missing statement. -/
def returnRoot (root : Tree) : TreeRes := .ok root

/-- Function `treeDelete` as the file has it: nothing is returned at the closing brace. -/
def treeDelete : Tree → Int → TreeRes := treeDeleteWith noValue

/-! ## Summation -/

/-- Function `sumTreeHelper` (lines 55-73): four cases on which children are `NULL`; every `+` is an
`int` addition. -/
def sumTreeHelper : Tree → Except Fault Int
  | .nil => .error .nullDeref
  | .node .nil n .nil => .ok n
  | .node .nil n (.node rl rn rr) => do
    let sr ← sumTreeHelper (.node rl rn rr)
    pure (wrapInt (n + sr))
  | .node (.node ll ln lr) n .nil => do
    let sl ← sumTreeHelper (.node ll ln lr)
    pure (wrapInt (n + sl))
  | .node (.node ll ln lr) n (.node rl rn rr) => do
    let sl ← sumTreeHelper (.node ll ln lr)
    let sr ← sumTreeHelper (.node rl rn rr)
    pure (wrapInt (wrapInt (n + sl) + sr))

/-- Function `sumTree` (lines 76-84). -/
def sumTree : Tree → Except Fault Int
  | .nil => .ok 0
  | .node l n r => sumTreeHelper (.node l n r)

/-- The plain recursive fold of the specification: `value + sum(left) + sum(right)`, an absent
child counting `0`, every addition in `int` arithmetic. -/
def foldSum : Tree → Int
  | .nil => 0
  | .node l n r => wrapInt (wrapInt (n + foldSum l) + foldSum r)

/-! ## Balanced construction -/

/-- Assignment `p->left = l`. -/
def setLeft : Tree → Tree → TreeRes
  | .nil, _ => .error .nullDeref
  | .node _ n r, l => .ok (.node l n r)

/-- Assignment `p->right = r`. -/
def setRight : Tree → Tree → TreeRes
  | .nil, _ => .error .nullDeref
  | .node l n _, r => .ok (.node l n r)

/-- Function `helper` (lines 166-183) with the node constructor as a parameter.  The C recursion has
no bound of its own, so the model carries a budget of nested calls; `s`, `e` are `int`s and
`e - s`, `s + _`, `m - 1`, `m + 1` are `int` operations, `/` truncates towards zero. -/
def helperWith (create : Int → TreeRes) : Nat → Int → Int → TreeRes
  | 0, _, _ => .error .outOfFuel
  | fuel + 1, s, e =>
    if e < s then .ok .nil
    else if e = s then create s
    else do
      let m := wrapInt (s + Int.tdiv (wrapInt (e - s)) 2)
      let node0 ← create m
      let l ← helperWith create fuel s (wrapInt (m - 1))
      let node1 ← setLeft node0 l
      let r ← helperWith create fuel (wrapInt (m + 1)) e
      let node2 ← setRight node1 r
      pure node2

/-- Function `helper` as the file has it: nodes are made by `createTreeNode`. -/
def helper : Nat → Int → Int → TreeRes := helperWith createTreeNode

/-! ## Sequences of operations -/

/-- One step of the mutation loop of `main`: `root = treeInsert(root, v)` or
`root = treeDelete(root, v)`. -/
inductive Op where
  | insert (v : Int) : Op
  | delete (v : Int) : Op
deriving DecidableEq

/-- Apply one operation; `create` makes the nodes and `atBrace` is what `treeDelete` gives
at its closing brace. -/
def applyOpWith (create : Int → TreeRes) (atBrace : Tree → TreeRes) (t : Tree) : Op → TreeRes
  | .insert v => treeInsertWith create t v
  | .delete v => treeDeleteWith atBrace t v

/-- Apply the operations one after another, each to the tree the previous one returned. -/
def runOpsWith (create : Int → TreeRes) (atBrace : Tree → TreeRes) : Tree → List Op → TreeRes
  | t, [] => .ok t
  | t, op :: ops => do
    let t1 ← applyOpWith create atBrace t op
    runOpsWith create atBrace t1 ops

/-- The operations as the file runs them. -/
def runOps : Tree → List Op → TreeRes := runOpsWith createTreeNode noValue

/-- Number of `insert` steps of a sequence. -/
def countInserts : List Op → Nat
  | [] => 0
  | .insert _ :: ops => countInserts ops + 1
  | .delete _ :: ops => countInserts ops

/-- Number of `delete` steps of a sequence. -/
def countDeletes : List Op → Nat
  | [] => 0
  | .insert _ :: ops => countDeletes ops
  | .delete _ :: ops => countDeletes ops + 1

/-- Every `delete v` of the sequence is issued when `v` is the value of some node of the
current tree (the tree the earlier steps produced from `t`). -/
def deletesOfPresent (create : Int → TreeRes) (atBrace : Tree → TreeRes) :
    Tree → List Op → Prop
  | _, [] => True
  | t, .insert v :: ops =>
    ∀ t1, treeInsertWith create t v = .ok t1 → deletesOfPresent create atBrace t1 ops
  | t, .delete v :: ops =>
    v ∈ inorder t ∧
      ∀ t1, treeDeleteWith atBrace t v = .ok t1 → deletesOfPresent create atBrace t1 ops

/-- Sum of the inserted values minus the values of the deletions issued while their value
is a key of the current tree, along the run of the sequence from `t`; a deletion of an
absent value counts nothing. -/
def netSum (create : Int → TreeRes) (atBrace : Tree → TreeRes) : Tree → List Op → Int
  | _, [] => 0
  | t, .insert v :: ops =>
    match treeInsertWith create t v with
    | .ok t1 => v + netSum create atBrace t1 ops
    | .error _ => 0
  | t, .delete v :: ops =>
    match treeDeleteWith atBrace t v with
    | .ok t1 => (if v ∈ inorder t then -v else 0) + netSum create atBrace t1 ops
    | .error _ => 0

/-- The values the sequence inserts or deletes. -/
def opValue : Op → Int
  | .insert v => v
  | .delete v => v

/-! ## The build phase of `main` -/

/-- Reduction of a mathematical integer to the 64-bit `long int` it is stored as
(wrap-around). -/
def wrapLong (x : Int) : Int :=
  (x + 9223372036854775808) % 18446744073709551616 - 9223372036854775808

/-- The loop of `power` (lines 224-226): `count` rounds of `power *= base` on a `long int`. -/
def powerLoop (base : Int) : Nat → Int → Int
  | 0, p => p
  | count + 1, p => powerLoop base count (wrapLong (p * base))

/-- Function `power` (lines 220-230): `i` runs from 0 while `i < superscript`. -/
def power (base superscript : Int) : Int := powerLoop base superscript.toNat 1

/-- Line 246 of `main`: `totalNodes = power(2, sizeParam + 1) - 1`, a `long int`; the second
argument of `power` is an `int` parameter. -/
def totalNodes (sizeParam : Int) : Int :=
  wrapLong (power 2 (wrapInt (wrapLong (sizeParam + 1))) - 1)

/-- Line 248 of `main`: `root = helper(0, totalNodes)`; the second parameter of `helper` is
an `int`.  Nodes are made by `create`. -/
def seedTreeWith (create : Int → TreeRes) (fuel : Nat) (sizeParam : Int) : TreeRes :=
  helperWith create fuel 0 (wrapInt (totalNodes sizeParam))

/-- The seed tree as the file builds it: nodes are made by `createTreeNode`. -/
def seedTree : Nat → Int → TreeRes := seedTreeWith createTreeNode

/-! ## Shape of the trees `helper` builds -/

/-- Every node of the tree, taken as covering the key range `[lo, hi]`, holds the midpoint
`lo + (hi - lo) / 2` of its range, and its right subtree has as many nodes as its left
subtree or one more; the left subtree covers `[lo, n - 1]` and the right `[n + 1, hi]`. -/
def balancedOn : Tree → Int → Int → Prop
  | .nil, _, _ => True
  | .node l n r, lo, hi =>
    n = lo + (hi - lo) / 2 ∧ (size r = size l ∨ size r = size l + 1) ∧
      balancedOn l lo (n - 1) ∧ balancedOn r (n + 1) hi

instance balancedOn.decidable : (t : Tree) → (lo hi : Int) → Decidable (balancedOn t lo hi)
  | .nil, _, _ => isTrue trivial
  | .node l n r, lo, hi =>
    have := balancedOn.decidable l lo (n - 1)
    have := balancedOn.decidable r (n + 1) hi
    by unfold balancedOn; infer_instance

/-! ## Positions in a tree -/

/-- The subtree reached after `k` steps along `left` links (`NULL` stays `NULL`). -/
def descendLeft : Nat → Tree → Tree
  | 0, t => t
  | _ + 1, .nil => .nil
  | k + 1, .node l _ _ => descendLeft k l

/-- The tree with its leftmost node taken out and replaced by the right subtree of that
node. -/
def removeLeftmost : Tree → Tree
  | .nil => .nil
  | .node .nil _ r => r
  | .node (.node ll ln lr) n r => .node (removeLeftmost (.node ll ln lr)) n r

/-- The subtree at a position: the position is the list of turns from the root, `false` for
`left` and `true` for `right`. -/
def subtreeAt : Tree → List Bool → Option Tree
  | t, [] => some t
  | .nil, _ :: _ => none
  | .node l _ _, false :: p => subtreeAt l p
  | .node _ _ r, true :: p => subtreeAt r p

/-! ## Printing -/

/-- The character of a decimal digit. -/
def digitChar (d : Nat) : Char := Char.ofNat (48 + d)

/-- Decimal numeral of a natural number, most significant digit first. -/
def natDecimal (n : Nat) : List Char :=
  if n = 0 then [digitChar 0] else (Nat.digits 10 n).reverse.map digitChar

/-- The text that the conversion `%d` of `printf` writes for an `int`. -/
def intDecimal : Int → List Char
  | .ofNat n => natDecimal n
  | .negSucc n => "-".toList ++ natDecimal (n + 1)

/-- Function `printTreeHelper` (lines 186-198): the characters written to the output, in
order. -/
def printTreeHelper : Tree → List Char
  | .nil => " Null ".toList
  | .node l n r =>
    "( ".toList ++ intDecimal n ++ " ".toList ++ printTreeHelper l ++ printTreeHelper r
      ++ ")".toList

/-! ## Facts about `int` arithmetic -/

theorem wrapInt_of_isInt {x : Int} (h : isInt x) : wrapInt x = x := by
  unfold isInt INT_MIN INT_MAX at h
  unfold wrapInt
  omega

theorem wrapInt_isInt (x : Int) : isInt (wrapInt x) := by
  unfold isInt INT_MIN INT_MAX wrapInt
  omega

theorem foldSum_eq_wrap_sum (t : Tree) : foldSum t = wrapInt (inorder t).sum := by
  induction t with
  | nil => simp [foldSum, inorder, wrapInt]
  | node l n r ihl ihr =>
    simp only [foldSum, inorder, List.sum_append, List.sum_cons, ihl, ihr]
    generalize (inorder l).sum = a
    generalize (inorder r).sum = b
    unfold wrapInt
    omega

theorem foldSum_node (l : Tree) (n : Int) (r : Tree) :
    foldSum (.node l n r) = wrapInt (wrapInt (n + foldSum l) + foldSum r) := rfl

theorem foldSum_nil : foldSum .nil = 0 := rfl

theorem sumTreeHelper_eq_foldSum (t : Tree) (hne : t ≠ .nil) (h : allInt t) :
    sumTreeHelper t = .ok (foldSum t) := by
  induction t with
  | nil => exact absurd rfl hne
  | node l n r ihl ihr =>
    obtain ⟨hn, hl, hr⟩ := h
    unfold isInt INT_MIN INT_MAX at hn
    cases l with
    | nil =>
      cases r with
      | nil =>
        simp only [sumTreeHelper, foldSum]
        unfold wrapInt
        congr 1
        omega
      | node rl rn rr =>
        have h2 := ihr (by simp) hr
        simp only [sumTreeHelper, h2, bind, Except.bind, pure, Except.pure]
        rw [foldSum_node .nil n, foldSum_nil]
        generalize foldSum (.node rl rn rr) = b
        unfold wrapInt
        congr 1
        omega
    | node ll ln lr =>
      have h1 := ihl (by simp) hl
      cases r with
      | nil =>
        simp only [sumTreeHelper, h1, bind, Except.bind, pure, Except.pure]
        rw [foldSum_node _ n .nil, foldSum_nil]
        generalize foldSum (.node ll ln lr) = a
        unfold wrapInt
        congr 1
        omega
      | node rl rn rr =>
        have h2 := ihr (by simp) hr
        simp only [sumTreeHelper, h1, h2, bind, Except.bind, pure, Except.pure]
        rw [foldSum_node _ n _]

/-! ## Facts about ranges and traversals -/

theorem intRange_length (s : Int) (k : Nat) : (intRange s k).length = k := by
  induction k generalizing s with
  | zero => rfl
  | succ k ih => simp [intRange, ih]

theorem mem_intRange {s : Int} {k : Nat} {x : Int} : x ∈ intRange s k ↔ s ≤ x ∧ x < s + k := by
  induction k generalizing s with
  | zero => simp [intRange]
  | succ k ih =>
    simp only [intRange, List.mem_cons, ih]
    push_cast
    omega

theorem intRange_append (s : Int) (a b : Nat) :
    intRange s (a + b) = intRange s a ++ intRange (s + a) b := by
  induction a generalizing s with
  | zero => simp [intRange]
  | succ a ih =>
    have h : a + 1 + b = (a + b) + 1 := by omega
    rw [h]
    simp only [intRange, ih, List.cons_append]
    push_cast
    congr 3
    ring

theorem intRange_pairwise (s : Int) (k : Nat) : (intRange s k).Pairwise (· < ·) := by
  induction k generalizing s with
  | zero => simp [intRange]
  | succ k ih =>
    simp only [intRange, List.pairwise_cons]
    refine ⟨fun x hx => ?_, ih _⟩
    have := (mem_intRange.mp hx).1
    omega

theorem size_eq_length (t : Tree) : size t = (inorder t).length := by
  induction t with
  | nil => rfl
  | node l n r ihl ihr => simp [size, inorder, ihl, ihr]; omega

theorem isBST_of_pairwise_lt (t : Tree) (h : (inorder t).Pairwise (· < ·)) : isBST t := by
  induction t with
  | nil => trivial
  | node l n r ihl ihr =>
    simp only [inorder, List.pairwise_append, List.pairwise_cons, List.mem_cons] at h
    obtain ⟨hl, ⟨hnr, hr⟩, hlr⟩ := h
    exact ⟨fun k hk => hlr k hk n (Or.inl rfl), fun k hk => le_of_lt (hnr k hk), ihl hl, ihr hr⟩

theorem helperWith_empty (create : Int → TreeRes) (fuel : Nat) (s e : Int) (h : e < s) :
    helperWith create (fuel + 1) s e = .ok .nil := by
  simp [helperWith, h]

theorem helperWith_range (create : Int → TreeRes) (hc : ∀ n, create n = .ok (newNode n))
    (fuel : Nat) : ∀ s e : Int, INT_MIN < s → e ≤ INT_MAX → e - s ≤ INT_MAX → s ≤ e + 1 →
      (e - s + 1).toNat < fuel →
      ∃ t, helperWith create fuel s e = .ok t ∧ inorder t = intRange s (e - s + 1).toNat := by
  induction fuel with
  | zero => intro s e _ _ _ _ hf; omega
  | succ fuel ih =>
    intro s e hs he hd hse hf
    unfold INT_MIN at hs
    unfold INT_MAX at he hd
    by_cases h1 : e < s
    · refine ⟨.nil, helperWith_empty create fuel s e h1, ?_⟩
      have : (e - s + 1).toNat = 0 := by omega
      rw [this]; rfl
    by_cases h2 : e = s
    · subst h2
      refine ⟨newNode e, by simp [helperWith, hc], ?_⟩
      simp [newNode, inorder, intRange]
    have hw : wrapInt (e - s) = e - s := wrapInt_of_isInt (by unfold isInt INT_MIN INT_MAX; omega)
    have hdiv : Int.tdiv (e - s) 2 = (e - s) / 2 := Int.tdiv_eq_ediv (by omega) (by omega)
    have hm : wrapInt (s + Int.tdiv (wrapInt (e - s)) 2) = s + (e - s) / 2 := by
      rw [hw, hdiv]
      exact wrapInt_of_isInt (by unfold isInt INT_MIN INT_MAX; omega)
    have hm1 : wrapInt (s + (e - s) / 2 - 1) = s + (e - s) / 2 - 1 :=
      wrapInt_of_isInt (by unfold isInt INT_MIN INT_MAX; omega)
    have hm2 : wrapInt (s + (e - s) / 2 + 1) = s + (e - s) / 2 + 1 :=
      wrapInt_of_isInt (by unfold isInt INT_MIN INT_MAX; omega)
    obtain ⟨l, hl, hil⟩ := ih s (s + (e - s) / 2 - 1) (by unfold INT_MIN; omega)
      (by unfold INT_MAX; omega) (by unfold INT_MAX; omega) (by omega) (by omega)
    obtain ⟨r, hr, hir⟩ := ih (s + (e - s) / 2 + 1) e (by unfold INT_MIN; omega)
      (by unfold INT_MAX; omega) (by unfold INT_MAX; omega) (by omega) (by omega)
    refine ⟨.node l (s + (e - s) / 2) r, ?_, ?_⟩
    · simp only [helperWith, h1, h2, if_false, hm, hm1, hm2, hc, hl, hr, bind, Except.bind,
        pure, Except.pure, newNode, setLeft, setRight]
    · simp only [inorder, hil, hir]
      have e1 : (e - s + 1).toNat
          = (s + (e - s) / 2 - 1 - s + 1).toNat + (1 + (e - (s + (e - s) / 2 + 1) + 1).toNat) := by
        omega
      rw [e1, intRange_append]
      have e2 : s + ((s + (e - s) / 2 - 1 - s + 1).toNat : Int) = s + (e - s) / 2 := by omega
      rw [e2, Nat.add_comm 1, intRange]
/-! ## Unfolding lemmas -/

theorem treeDeleteWith_gt (atBrace : Tree → TreeRes) (l : Tree) (n : Int) (r : Tree) (v : Int)
    (h : n > v) :
    treeDeleteWith atBrace (.node l n r) v
      = (treeDeleteWith atBrace l v >>= fun l1 => atBrace (.node l1 n r)) := by
  simp [treeDeleteWith, h]

theorem treeDeleteWith_lt (atBrace : Tree → TreeRes) (l : Tree) (n : Int) (r : Tree) (v : Int)
    (h : n < v) :
    treeDeleteWith atBrace (.node l n r) v
      = (treeDeleteWith atBrace r v >>= fun r1 => atBrace (.node l n r1)) := by
  have h1 : ¬ n > v := by omega
  simp [treeDeleteWith, h, h1]

theorem treeDeleteWith_eq_nil_left (atBrace : Tree → TreeRes) (n : Int) (r : Tree) :
    treeDeleteWith atBrace (.node .nil n r) n = .ok r := by
  simp [treeDeleteWith]

theorem treeDeleteWith_eq_nil_right (atBrace : Tree → TreeRes) (ll : Tree) (ln : Int) (lr : Tree)
    (n : Int) :
    treeDeleteWith atBrace (.node (.node ll ln lr) n .nil) n = .ok (.node ll ln lr) := by
  simp [treeDeleteWith]

theorem treeDeleteWith_eq_two (atBrace : Tree → TreeRes) (ll : Tree) (ln : Int) (lr : Tree)
    (n : Int) (rl : Tree) (rn : Int) (rr : Tree) :
    treeDeleteWith atBrace (.node (.node ll ln lr) n (.node rl rn rr)) n
      = (readN (findMinSuccessor (.node rl rn rr)) >>= fun m =>
          treeDeleteWith atBrace (.node rl rn rr) m >>= fun r1 =>
            pure (.node (.node ll ln lr) m r1)) := by
  simp [treeDeleteWith]

theorem treeInsertHelperWith_leaf (create : Int → TreeRes) (n v : Int) :
    treeInsertHelperWith create (.node .nil n .nil) v
      = (create v >>= fun new =>
          if v < n then pure (.node new n .nil) else pure (.node .nil n new)) := by
  simp [treeInsertHelperWith]

theorem treeInsertHelperWith_lt_nil (create : Int → TreeRes) (n : Int) (r : Tree) (v : Int)
    (h : v < n) :
    treeInsertHelperWith create (.node .nil n r) v
      = (create v >>= fun new => pure (.node new n r)) := by
  cases r <;> simp [treeInsertHelperWith, h]

theorem treeInsertHelperWith_lt_node (create : Int → TreeRes) (ll : Tree) (ln : Int) (lr : Tree)
    (n : Int) (r : Tree) (v : Int) (h : v < n) :
    treeInsertHelperWith create (.node (.node ll ln lr) n r) v
      = (treeInsertHelperWith create (.node ll ln lr) v >>= fun l1 => pure (.node l1 n r)) := by
  cases r <;> simp [treeInsertHelperWith, h]

theorem treeInsertHelperWith_ge_nil (create : Int → TreeRes) (l : Tree) (n : Int) (v : Int)
    (h : ¬ v < n) :
    treeInsertHelperWith create (.node l n .nil) v
      = (create v >>= fun new => pure (.node l n new)) := by
  cases l <;> simp [treeInsertHelperWith, h]

theorem treeInsertHelperWith_ge_node (create : Int → TreeRes) (l : Tree) (n : Int) (rl : Tree)
    (rn : Int) (rr : Tree) (v : Int) (h : ¬ v < n) :
    treeInsertHelperWith create (.node l n (.node rl rn rr)) v
      = (treeInsertHelperWith create (.node rl rn rr) v >>= fun r1 => pure (.node l n r1)) := by
  cases l <;> simp [treeInsertHelperWith, h]

/-! ## Results on the functions as written -/

/-- A node whose value differs from the value to delete sends `treeDelete` into one of its
two recursing branches, and the call ends without a value for the caller. -/
theorem treeDelete_no_value_off_root (l : Tree) (n : Int) (r : Tree) (v : Int) (h : n ≠ v)
    (t1 : Tree) : treeDelete (.node l n r) v ≠ .ok t1 := by
  unfold treeDelete
  by_cases h1 : n > v
  · rw [treeDeleteWith_gt _ _ _ _ _ h1]
    cases treeDeleteWith noValue l v <;> simp [bind, Except.bind, noValue]
  · have h2 : n < v := lt_of_le_of_ne (not_lt.mp h1) h
    rw [treeDeleteWith_lt _ _ _ _ _ h2]
    cases treeDeleteWith noValue r v <;> simp [bind, Except.bind, noValue]

/-- No call of `treeInsertHelper` gives the caller a tree: every path makes a node with
`createTreeNode`. -/
theorem treeInsertHelper_no_value (t : Tree) (v : Int) (t1 : Tree) :
    treeInsertHelper t v ≠ .ok t1 := by
  unfold treeInsertHelper
  induction t generalizing t1 with
  | nil => simp [treeInsertHelperWith]
  | node l n r ihl ihr =>
    by_cases h : v < n
    · cases l with
      | nil => rw [treeInsertHelperWith_lt_nil _ _ _ _ h]; simp [createTreeNode, bind, Except.bind]
      | node ll ln lr =>
        rw [treeInsertHelperWith_lt_node _ _ _ _ _ _ _ h]
        cases hq : treeInsertHelperWith createTreeNode (.node ll ln lr) v with
        | error f => simp [bind, Except.bind]
        | ok q => exact absurd hq (ihl q)
    · cases r with
      | nil => rw [treeInsertHelperWith_ge_nil _ _ _ _ h]; simp [createTreeNode, bind, Except.bind]
      | node rl rn rr =>
        rw [treeInsertHelperWith_ge_node _ _ _ _ _ _ _ h]
        cases hq : treeInsertHelperWith createTreeNode (.node rl rn rr) v with
        | error f => simp [bind, Except.bind]
        | ok q => exact absurd hq (ihr q)

/-- Function `treeInsert` on any tree and value gives the caller no tree. -/
theorem treeInsert_no_value (t : Tree) (v : Int) (t1 : Tree) : treeInsert t v ≠ .ok t1 := by
  cases t with
  | nil => simp [treeInsert, treeInsertWith, createTreeNode, bind, Except.bind]
  | node l n r => exact treeInsertHelper_no_value (.node l n r) v t1

/-! ## Insertion when the constructor hands back its node -/

theorem keys_node (l : Tree) (n : Int) (r : Tree) :
    keys (.node l n r) = keys l + n ::ₘ keys r := by
  simp [keys, inorder]

theorem keys_nil : keys .nil = 0 := rfl

theorem keys_newNode (v : Int) : keys (newNode v) = {v} := by
  simp [keys, newNode, inorder]

theorem mem_keys {t : Tree} {k : Int} : k ∈ keys t ↔ k ∈ inorder t := by
  simp [keys]

theorem size_eq_card (t : Tree) : size t = Multiset.card (keys t) := by
  rw [size_eq_length]; simp [keys]

/-- The update `treeInsertHelper` performs on a node, the constructor handing back its
node: a tree is returned, its keys are those of the input plus `v`, and BST order is kept. -/
theorem treeInsertHelperWith_spec (create : Int → TreeRes) (hc : ∀ n, create n = .ok (newNode n))
    (v : Int) (t : Tree) (hne : t ≠ .nil) :
    ∃ t1, treeInsertHelperWith create t v = .ok t1 ∧ t1 ≠ .nil ∧ keys t1 = v ::ₘ keys t ∧
      (isBST t → isBST t1) := by
  induction t with
  | nil => exact absurd rfl hne
  | node l n r ihl ihr =>
    by_cases h : v < n
    · cases l with
      | nil =>
        refine ⟨.node (newNode v) n r, ?_, by simp, ?_, ?_⟩
        · rw [treeInsertHelperWith_lt_nil _ _ _ _ h, hc]; rfl
        · simp only [keys_node, keys_nil, keys_newNode, ← Multiset.singleton_add]; abel
        · intro hb
          obtain ⟨_, h2, _, h4⟩ := hb
          exact ⟨by simp [newNode, inorder, h], h2, by simp [newNode, isBST, inorder], h4⟩
      | node ll ln lr =>
        obtain ⟨l1, e1, _, k1, b1⟩ := ihl (by simp)
        refine ⟨.node l1 n r, ?_, by simp, ?_, ?_⟩
        · rw [treeInsertHelperWith_lt_node _ _ _ _ _ _ _ h, e1]; rfl
        · simp only [keys_node, k1, ← Multiset.singleton_add]; abel
        · intro hb
          obtain ⟨h1, h2, h3, h4⟩ := hb
          refine ⟨fun k hk => ?_, h2, b1 h3, h4⟩
          have : k ∈ v ::ₘ keys (.node ll ln lr) := k1 ▸ mem_keys.mpr hk
          rcases Multiset.mem_cons.mp this with rfl | hk1
          · exact h
          · exact h1 k (mem_keys.mp hk1)
    · cases r with
      | nil =>
        refine ⟨.node l n (newNode v), ?_, by simp, ?_, ?_⟩
        · rw [treeInsertHelperWith_ge_nil _ _ _ _ h, hc]; rfl
        · simp only [keys_node, keys_nil, keys_newNode, ← Multiset.singleton_add]; abel
        · intro hb
          obtain ⟨h1, _, h3, _⟩ := hb
          exact ⟨h1, by simpa [newNode, inorder] using not_lt.mp h, h3,
            by simp [newNode, isBST, inorder]⟩
      | node rl rn rr =>
        obtain ⟨r1, e1, _, k1, b1⟩ := ihr (by simp)
        refine ⟨.node l n r1, ?_, by simp, ?_, ?_⟩
        · rw [treeInsertHelperWith_ge_node _ _ _ _ _ _ _ h, e1]; rfl
        · simp only [keys_node, k1, ← Multiset.singleton_add]; abel
        · intro hb
          obtain ⟨h1, h2, h3, h4⟩ := hb
          refine ⟨h1, fun k hk => ?_, h3, b1 h4⟩
          have : k ∈ v ::ₘ keys (.node rl rn rr) := k1 ▸ mem_keys.mpr hk
          rcases Multiset.mem_cons.mp this with rfl | hk1
          · exact not_lt.mp h
          · exact h2 k (mem_keys.mp hk1)

/-- The contract of insertion, the constructor handing back its node: `treeInsert` returns
a tree whose keys are those of the input plus one `v`, with one node more, the result for
the empty tree is the single leaf `v`, and BST order is kept. -/
theorem treeInsertWith_spec (create : Int → TreeRes) (hc : ∀ n, create n = .ok (newNode n))
    (t : Tree) (v : Int) :
    ∃ t1, treeInsertWith create t v = .ok t1 ∧ t1 ≠ .nil ∧ keys t1 = v ::ₘ keys t ∧
      size t1 = size t + 1 ∧ (isBST t → isBST t1) ∧ (t = .nil → t1 = .node .nil v .nil) := by
  have main : ∃ t1, treeInsertWith create t v = .ok t1 ∧ t1 ≠ .nil ∧ keys t1 = v ::ₘ keys t ∧
      (isBST t → isBST t1) ∧ (t = .nil → t1 = .node .nil v .nil) := by
    cases t with
    | nil =>
      refine ⟨newNode v, ?_, by simp [newNode], by simp [keys, newNode, inorder], ?_, fun _ => rfl⟩
      · simp [treeInsertWith, hc, bind, Except.bind, pure, Except.pure]
      · intro _; simp [newNode, isBST, inorder]
    | node l n r =>
      obtain ⟨t1, e1, n1, k1, b1⟩ := treeInsertHelperWith_spec create hc v (.node l n r) (by simp)
      exact ⟨t1, e1, n1, k1, b1, fun h => by simp at h⟩
  obtain ⟨t1, e1, n1, k1, b1, l1⟩ := main
  refine ⟨t1, e1, n1, k1, ?_, b1, l1⟩
  rw [size_eq_card, size_eq_card, k1]
  simp

/-! ## Deletion when `root` is returned at the closing brace -/

theorem isBST_sorted (t : Tree) (h : isBST t) : (inorder t).Pairwise (· ≤ ·) := by
  induction t with
  | nil => simp [inorder]
  | node l n r ihl ihr =>
    obtain ⟨h1, h2, h3, h4⟩ := h
    simp only [inorder, List.pairwise_append, List.pairwise_cons, List.mem_cons]
    refine ⟨ihl h3, ⟨h2, ihr h4⟩, fun a ha b hb => ?_⟩
    rcases hb with rfl | hb
    · exact le_of_lt (h1 a ha)
    · exact le_trans (le_of_lt (h1 a ha)) (h2 b hb)

/-- On a non-empty tree `findMinSuccessor` stops at a node without left child whose value
is the first element of the in-order traversal. -/
theorem findMinSuccessor_spec (t : Tree) (hne : t ≠ .nil) :
    ∃ m r1 rest, findMinSuccessor t = .node .nil m r1 ∧ inorder t = m :: rest := by
  induction t with
  | nil => exact absurd rfl hne
  | node l n r ihl _ =>
    cases l with
    | nil => exact ⟨n, r, inorder r, rfl, by simp [inorder]⟩
    | node ll ln lr =>
      obtain ⟨m, r1, rest, h1, h2⟩ := ihl (by simp)
      refine ⟨m, r1, rest ++ n :: inorder r, ?_, ?_⟩
      · rw [findMinSuccessor, h1]
      · rw [inorder, h2]; rfl

theorem erase_add_of_not_mem_right (s t : Multiset Int) (v : Int) (h : v ∉ t) :
    (s + t).erase v = s.erase v + t := by
  by_cases hs : v ∈ s
  · exact Multiset.erase_add_left_pos t hs
  · rw [Multiset.erase_of_not_mem hs, Multiset.erase_of_not_mem]
    simp [hs, h]

/-- The contract of deletion, `root` being returned at the closing brace: a tree is
returned; its keys are keys of the input; an absent value leaves the tree as it is; and on
a BST-ordered input the result is BST-ordered and its keys are those of the input with one
occurrence of `v` removed. -/
theorem treeDeleteWith_returnRoot_spec (t : Tree) : ∀ v : Int,
    ∃ t1, treeDeleteWith returnRoot t v = .ok t1 ∧
      (∀ k ∈ inorder t1, k ∈ inorder t) ∧
      (v ∉ inorder t → t1 = t) ∧
      (isBST t → isBST t1 ∧ keys t1 = (keys t).erase v) := by
  induction t with
  | nil =>
    intro v
    exact ⟨.nil, rfl, fun k hk => hk, fun _ => rfl, fun _ => ⟨trivial, by simp [keys_nil]⟩⟩
  | node l n r ihl ihr =>
    intro v
    by_cases hgt : n > v
    · obtain ⟨l1, el, sl, al, bl⟩ := ihl v
      refine ⟨.node l1 n r, ?_, ?_, ?_, ?_⟩
      · rw [treeDeleteWith_gt _ _ _ _ _ hgt, el]; rfl
      · intro k hk
        simp only [inorder, List.mem_append, List.mem_cons] at hk ⊢
        rcases hk with hk | hk
        · exact Or.inl (sl k hk)
        · exact Or.inr hk
      · intro hv
        simp only [inorder, List.mem_append, List.mem_cons, not_or] at hv
        rw [al hv.1]
      · intro hb
        obtain ⟨h1, h2, h3, h4⟩ := hb
        obtain ⟨b1, k1⟩ := bl h3
        refine ⟨⟨fun k hk => h1 k (sl k hk), h2, b1, h4⟩, ?_⟩
        rw [keys_node, keys_node, k1, erase_add_of_not_mem_right]
        intro hm
        rcases Multiset.mem_cons.mp hm with rfl | hm
        · exact lt_irrefl _ hgt
        · have := h2 v (mem_keys.mp hm)
          omega
    by_cases hlt : n < v
    · obtain ⟨r1, er, sr, ar, br⟩ := ihr v
      refine ⟨.node l n r1, ?_, ?_, ?_, ?_⟩
      · rw [treeDeleteWith_lt _ _ _ _ _ hlt, er]; rfl
      · intro k hk
        simp only [inorder, List.mem_append, List.mem_cons] at hk ⊢
        rcases hk with hk | hk | hk
        · exact Or.inl hk
        · exact Or.inr (Or.inl hk)
        · exact Or.inr (Or.inr (sr k hk))
      · intro hv
        simp only [inorder, List.mem_append, List.mem_cons, not_or] at hv
        rw [ar hv.2.2]
      · intro hb
        obtain ⟨h1, h2, h3, h4⟩ := hb
        obtain ⟨b1, k1⟩ := br h4
        refine ⟨⟨h1, fun k hk => h2 k (sr k hk), h3, b1⟩, ?_⟩
        have hvl : v ∉ keys l := fun hm => by
          have := h1 v (mem_keys.mp hm)
          omega
        rw [keys_node, keys_node, k1, Multiset.erase_add_right_neg _ hvl,
          Multiset.erase_cons_tail _ (by omega : n ≠ v)]
    have hnv : n = v := by omega
    subst hnv
    cases l with
    | nil =>
      refine ⟨r, treeDeleteWith_eq_nil_left _ _ _, ?_, ?_, ?_⟩
      · intro k hk; simp [inorder, hk]
      · intro hv; simp [inorder] at hv
      · intro hb
        exact ⟨hb.2.2.2, by simp [keys_node, keys_nil]⟩
    | node ll ln lr =>
      cases r with
      | nil =>
        refine ⟨.node ll ln lr, treeDeleteWith_eq_nil_right _ _ _ _ _, ?_, ?_, ?_⟩
        · intro k hk
          rw [inorder, List.mem_append]
          exact Or.inl hk
        · intro hv; simp [inorder] at hv
        · intro hb
          obtain ⟨h1, _, h3, _⟩ := hb
          have hnl : n ∉ keys (.node ll ln lr) := fun hm => lt_irrefl _ (h1 n (mem_keys.mp hm))
          refine ⟨h3, ?_⟩
          rw [keys_node _ n, keys_nil, Multiset.erase_add_right_neg _ hnl]
          simp
      | node rl rn rr =>
        obtain ⟨m, q, rest, hf, hi⟩ := findMinSuccessor_spec (.node rl rn rr) (by simp)
        obtain ⟨r1, er, sr, _, br⟩ := ihr m
        have hmr : m ∈ inorder (.node rl rn rr) := by rw [hi]; simp
        refine ⟨.node (.node ll ln lr) m r1, ?_, ?_, ?_, ?_⟩
        · rw [treeDeleteWith_eq_two, hf]
          simp only [readN, bind, Except.bind, er, pure, Except.pure]
        · intro k hk
          rw [inorder, List.mem_append, List.mem_cons] at hk
          rw [inorder, List.mem_append, List.mem_cons]
          rcases hk with hk | rfl | hk
          · exact Or.inl hk
          · exact Or.inr (Or.inr hmr)
          · exact Or.inr (Or.inr (sr k hk))
        · intro hv
          exfalso
          apply hv
          rw [inorder, List.mem_append, List.mem_cons]
          exact Or.inr (Or.inl rfl)
        · intro hb
          obtain ⟨h1, h2, h3, h4⟩ := hb
          obtain ⟨b1, k1⟩ := br h4
          have hmin : ∀ k ∈ inorder (.node rl rn rr), m ≤ k := by
            have hs := isBST_sorted _ h4
            rw [hi] at hs ⊢
            intro k hk
            rcases List.mem_cons.mp hk with rfl | hk
            · exact le_refl _
            · exact (List.pairwise_cons.mp hs).1 k hk
          have hnl : n ∉ keys (.node ll ln lr) := fun hm => lt_irrefl _ (h1 n (mem_keys.mp hm))
          refine ⟨⟨fun k hk => lt_of_lt_of_le (h1 k hk) (h2 m hmr),
            fun k hk => hmin k (sr k hk), h3, b1⟩, ?_⟩
          rw [keys_node _ m, k1, Multiset.cons_erase (mem_keys.mpr hmr), keys_node _ n,
            Multiset.erase_add_right_neg _ hnl, Multiset.erase_cons_head]

/-- Insertion of an absent value followed by its deletion gives the input tree back, the
constructor handing back its node and `root` being returned at the closing brace. -/
theorem insert_delete_roundtrip (create : Int → TreeRes) (hc : ∀ n, create n = .ok (newNode n))
    (v : Int) (t : Tree) (hv : v ∉ inorder t) :
    ∃ t1, treeInsertWith create t v = .ok t1 ∧ treeDeleteWith returnRoot t1 v = .ok t := by
  have step : ∀ t : Tree, t ≠ .nil → v ∉ inorder t →
      ∃ t1, treeInsertHelperWith create t v = .ok t1 ∧
        treeDeleteWith returnRoot t1 v = .ok t := by
    intro t
    induction t with
    | nil => intro h; exact absurd rfl h
    | node l n r ihl ihr =>
      intro _ hv
      simp only [inorder, List.mem_append, List.mem_cons, not_or] at hv
      obtain ⟨hl, hn, hr⟩ := hv
      by_cases h : v < n
      · cases l with
        | nil =>
          refine ⟨.node (newNode v) n r, ?_, ?_⟩
          · rw [treeInsertHelperWith_lt_nil _ _ _ _ h, hc]; rfl
          · rw [treeDeleteWith_gt _ _ _ _ _ h, newNode, treeDeleteWith_eq_nil_left]; rfl
        | node ll ln lr =>
          obtain ⟨l1, e1, d1⟩ := ihl (by simp) hl
          refine ⟨.node l1 n r, ?_, ?_⟩
          · rw [treeInsertHelperWith_lt_node _ _ _ _ _ _ _ h, e1]; rfl
          · rw [treeDeleteWith_gt _ _ _ _ _ h, d1]; rfl
      · have h2 : n < v := lt_of_le_of_ne (not_lt.mp h) (Ne.symm hn)
        cases r with
        | nil =>
          refine ⟨.node l n (newNode v), ?_, ?_⟩
          · rw [treeInsertHelperWith_ge_nil _ _ _ _ h, hc]; rfl
          · rw [treeDeleteWith_lt _ _ _ _ _ h2, newNode, treeDeleteWith_eq_nil_left]; rfl
        | node rl rn rr =>
          obtain ⟨r1, e1, d1⟩ := ihr (by simp) hr
          refine ⟨.node l n r1, ?_, ?_⟩
          · rw [treeInsertHelperWith_ge_node _ _ _ _ _ _ _ h, e1]; rfl
          · rw [treeDeleteWith_lt _ _ _ _ _ h2, d1]; rfl
  cases t with
  | nil =>
    refine ⟨newNode v, ?_, ?_⟩
    · simp [treeInsertWith, hc, bind, Except.bind, pure, Except.pure]
    · rw [newNode, treeDeleteWith_eq_nil_left]
  | node l n r => exact step (.node l n r) (by simp) hv

/-- Any sequence of insertions and deletions keeps BST order, so the in-order traversal of
the final tree is non-decreasing; the constructor hands back its node and `root` is
returned at the closing brace. -/
theorem runOpsWith_sorted (create : Int → TreeRes) (hc : ∀ n, create n = .ok (newNode n))
    (ops : List Op) : ∀ t : Tree, isBST t →
      ∃ t1, runOpsWith create returnRoot t ops = .ok t1 ∧ isBST t1 ∧
        (inorder t1).Pairwise (· ≤ ·) := by
  induction ops with
  | nil => intro t hb; exact ⟨t, rfl, hb, isBST_sorted t hb⟩
  | cons op ops ih =>
    intro t hb
    cases op with
    | insert v =>
      obtain ⟨t1, e1, _, _, _, b1, _⟩ := treeInsertWith_spec create hc t v
      obtain ⟨t2, e2, b2⟩ := ih t1 (b1 hb)
      exact ⟨t2, by simp only [runOpsWith, applyOpWith, e1, bind, Except.bind, e2], b2⟩
    | delete v =>
      obtain ⟨t1, e1, _, _, b1⟩ := treeDeleteWith_returnRoot_spec t v
      obtain ⟨t2, e2, b2⟩ := ih t1 (b1 hb).1
      exact ⟨t2, by simp only [runOpsWith, applyOpWith, e1, bind, Except.bind, e2], b2⟩

/-- Size accounting: when every deletion is of a value present at that moment, the final
tree has as many nodes as the start tree, plus the insertions, minus the deletions; the
constructor hands back its node and `root` is returned at the closing brace. -/
theorem runOpsWith_size (create : Int → TreeRes) (hc : ∀ n, create n = .ok (newNode n))
    (ops : List Op) : ∀ t : Tree, isBST t → deletesOfPresent create returnRoot t ops →
      ∃ t1, runOpsWith create returnRoot t ops = .ok t1 ∧
        size t1 + countDeletes ops = size t + countInserts ops := by
  induction ops with
  | nil => intro t _ _; exact ⟨t, rfl, rfl⟩
  | cons op ops ih =>
    intro t hb hp
    cases op with
    | insert v =>
      obtain ⟨t1, e1, _, _, s1, b1, _⟩ := treeInsertWith_spec create hc t v
      obtain ⟨t2, e2, s2⟩ := ih t1 (b1 hb) (hp t1 e1)
      refine ⟨t2, by simp only [runOpsWith, applyOpWith, e1, bind, Except.bind, e2], ?_⟩
      simp only [countDeletes, countInserts]
      omega
    | delete v =>
      obtain ⟨t1, e1, _, _, b1⟩ := treeDeleteWith_returnRoot_spec t v
      obtain ⟨hv, hp1⟩ := hp
      obtain ⟨t2, e2, s2⟩ := ih t1 (b1 hb).1 (hp1 t1 e1)
      refine ⟨t2, by simp only [runOpsWith, applyOpWith, e1, bind, Except.bind, e2], ?_⟩
      have hc1 : size t1 + 1 = size t := by
        rw [size_eq_card, size_eq_card, (b1 hb).2]
        exact Multiset.card_erase_add_one (mem_keys.mpr hv)
      simp only [countDeletes, countInserts]
      omega

/-- Budget-independent view of the wrap-around in `helper`: on the range
`[INT_MIN, INT_MAX]` the midpoint is `INT_MIN` again and the left recursive call is on the
same range, so no budget is enough. -/
theorem helperWith_full_range_loops (fuel : Nat) :
    helperWith createReturning fuel INT_MIN INT_MAX = .error .outOfFuel := by
  induction fuel with
  | zero => rfl
  | succ fuel ih =>
    have h1 : ¬ INT_MAX < INT_MIN := by decide
    have h2 : ¬ INT_MAX = INT_MIN := by decide
    have hm : wrapInt (INT_MIN + Int.tdiv (wrapInt (INT_MAX - INT_MIN)) 2) = INT_MIN := by decide
    have hm1 : wrapInt (INT_MIN - 1) = INT_MAX := by decide
    simp only [helperWith, h1, h2, if_false, hm, hm1, ih, createReturning, bind, Except.bind]

/-! ## The claims -/

/-- C1, on the code as written.  `treeInsert(NULL, 5)` hands its caller whatever
`createTreeNode(5)` handed it, and `createTreeNode` ends without a `return` statement: the
caller receives no tree, where the claim has a single leaf holding 5.  The same holds for a
non-empty tree, here the leaf 7. -/
theorem treeInsert_empty_no_leaf :
    treeInsert .nil 5 = .error .noReturn ∧
    treeInsert (.node .nil 7 .nil) 5 = .error .noReturn := by
  decide

/-- C2, on the code as written.  The tree 5(3, 8) is BST-ordered and holds 3, and
`treeDelete` of 3 unlinks the leaf 3 in the branch `root->n > value` and then reaches the end
of the function without a `return`: the caller receives no tree, where the claim has the
tree with keys 5, 8. -/
theorem treeDelete_present_no_tree :
    isBST (.node (.node .nil 3 .nil) 5 (.node .nil 8 .nil)) ∧
    (3 : Int) ∈ inorder (.node (.node .nil 3 .nil) 5 (.node .nil 8 .nil)) ∧
    treeDelete (.node (.node .nil 3 .nil) 5 (.node .nil 8 .nil)) 3 = .error .noReturn := by
  decide

/-- C3, on the code as written.  The leaf 5 is BST-ordered, and `treeInsert` of 3 into it
gives the caller no tree whose order could be examined: the node for 3 comes from
`createTreeNode`, which ends without a `return`. -/
theorem treeInsert_bst_no_tree :
    isBST (.node .nil 5 .nil) ∧ treeInsert (.node .nil 5 .nil) 3 = .error .noReturn := by
  decide

/-- C4, on the code as written.  The tree 5(-, 8(-, 9)) is BST-ordered, and `treeDelete` of 9
takes the branch `root->n < value` at the root, which ends without a `return`: the caller
receives no tree whose order could be examined. -/
theorem treeDelete_bst_no_tree :
    isBST (.node .nil 5 (.node .nil 8 (.node .nil 9 .nil))) ∧
    treeDelete (.node .nil 5 (.node .nil 8 (.node .nil 9 .nil))) 9 = .error .noReturn := by
  decide

/-- C5, on the code as written.  3 is not a key of the leaf 5, and `treeDelete` of 3 takes
the branch `root->n > value`, which ends without a `return`: the caller does not receive
the input tree back. -/
theorem treeDelete_absent_no_tree :
    (3 : Int) ∉ inorder (.node .nil 5 .nil) ∧
    treeDelete (.node .nil 5 .nil) 3 = .error .noReturn ∧
    treeDelete (.node .nil 5 .nil) 3 ≠ .ok (.node .nil 5 .nil) := by
  decide

/-- C6, on the code as written.  3 is not a key of the leaf 5.  Inserting 3 and then
deleting it gives the caller no tree, first because `createTreeNode` ends without a
`return`; and when the insertion is given its node, so that it yields 5(3, -), because the
deletion of 3 takes the branch `root->n > value`, which ends without a `return`. -/
theorem insert_then_delete_no_tree :
    (3 : Int) ∉ inorder (.node .nil 5 .nil) ∧
    (treeInsert (.node .nil 5 .nil) 3 >>= fun t => treeDelete t 3) = .error .noReturn ∧
    treeInsertWith createReturning (.node .nil 5 .nil) 3
      = .ok (.node (.node .nil 3 .nil) 5 .nil) ∧
    treeDelete (.node (.node .nil 3 .nil) 5 .nil) 3 = .error .noReturn := by
  decide

/-- C7.  `sumTree` of the empty tree is 0.  For a tree whose keys are `int` values,
`sumTree` returns the plain fold `value + sum(left) + sum(right)` in `int` arithmetic, which
is the sum of all keys (each node once) reduced to `int`, and is that sum itself when the sum
is an `int`. -/
theorem sumTree_correct (t : Tree) (h : allInt t) :
    sumTree .nil = .ok 0 ∧
    sumTree t = .ok (foldSum t) ∧
    sumTree t = .ok (wrapInt (inorder t).sum) ∧
    (isInt (inorder t).sum → sumTree t = .ok (inorder t).sum) := by
  have key : sumTree t = .ok (foldSum t) := by
    cases t with
    | nil => rfl
    | node l n r => exact sumTreeHelper_eq_foldSum _ (by simp) h
  refine ⟨rfl, key, ?_, fun hs => ?_⟩
  · rw [key, foldSum_eq_wrap_sum]
  · rw [key, foldSum_eq_wrap_sum, wrapInt_of_isInt hs]

/-- C7 at the tree with keys 5, 3, 8: the sum is 16. -/
theorem sumTree_correct_witness :
    allInt (.node (.node .nil 3 .nil) 5 (.node .nil 8 .nil)) ∧
    inorder (.node (.node .nil 3 .nil) 5 (.node .nil 8 .nil)) = [3, 5, 8] ∧
    sumTree (.node (.node .nil 3 .nil) 5 (.node .nil 8 .nil)) = .ok 16 :=
  ⟨by decide, by decide,
    (sumTree_correct (.node (.node .nil 3 .nil) 5 (.node .nil 8 .nil)) (by decide)).2.2.2
      (by decide)⟩

/-- The trees `helper` builds when the node constructor hands back the node it builds.  For
`int`s `s <= e` with `INT_MIN < s` and `e - s` an `int`, every budget above `e - s + 1`
makes `helper(s, e)` return a tree whose in-order traversal is `s, s+1, ..., e`; the tree
has `e - s + 1` nodes, holds every key of the range once and no other key, and is
BST-ordered.  For `e < s` the result is the empty tree. -/
theorem helper_builds_range (create : Int → TreeRes) (hc : ∀ n, create n = .ok (newNode n))
    (s e : Int) (hs : INT_MIN < s) (hse : s ≤ e) (he : e ≤ INT_MAX) (hd : e - s ≤ INT_MAX)
    (fuel : Nat) (hf : (e - s + 1).toNat < fuel) :
    (∃ t, helperWith create fuel s e = .ok t ∧
        inorder t = intRange s (e - s + 1).toNat ∧
        size t = (e - s + 1).toNat ∧
        (inorder t).Nodup ∧ (∀ k, k ∈ inorder t ↔ s ≤ k ∧ k ≤ e) ∧
        isBST t) ∧
    (∀ s1 e1 : Int, e1 < s1 → helperWith create fuel s1 e1 = .ok .nil) := by
  constructor
  · obtain ⟨t, ht, hi⟩ := helperWith_range create hc fuel s e hs he hd (by omega) hf
    have hp : (inorder t).Pairwise (· < ·) := hi ▸ intRange_pairwise _ _
    refine ⟨t, ht, hi, ?_, hp.imp (fun h => ne_of_lt h), fun k => ?_, isBST_of_pairwise_lt t hp⟩
    · rw [size_eq_length, hi, intRange_length]
    · rw [hi, mem_intRange]
      omega
  · intro s1 e1 h1
    obtain ⟨f, rfl⟩ : ∃ f, fuel = f + 1 := ⟨fuel - 1, by omega⟩
    exact helperWith_empty create f s1 e1 h1

/-- C9, on the code as written.  The one-step sequence `insert 5` from the empty tree gives
no tree to traverse, because `createTreeNode` ends without a `return`; and when insertions
are given their nodes, `insert 5, insert 3, delete 3` gives none, because the deletion of 3
from 5(3, -) takes the branch `root->n > value`, which ends without a `return`. -/
theorem runOps_no_tree :
    runOps .nil [.insert 5] = .error .noReturn ∧
    runOpsWith createReturning noValue .nil [.insert 5, .insert 3, .delete 3]
      = .error .noReturn := by
  decide

/-- C10, on the code as written.  After `insert 5, insert 8` (two inserts, no delete) there
is no tree whose nodes could be counted; and when insertions are given their nodes, so that
the tree is 5(-, 8), the deletion of the present value 8 takes the branch
`root->n < value`, which ends without a `return`, where the claim has a tree of one node. -/
theorem runOps_count_no_tree :
    runOps .nil [.insert 5, .insert 8] = .error .noReturn ∧
    runOpsWith createReturning noValue .nil [.insert 5, .insert 8]
      = .ok (.node .nil 5 (.node .nil 8 .nil)) ∧
    (8 : Int) ∈ inorder (.node .nil 5 (.node .nil 8 .nil)) ∧
    runOpsWith createReturning noValue .nil [.insert 5, .insert 8, .delete 8]
      = .error .noReturn := by
  decide

/-! ## Lemmas for the later claims -/

/-- On `[INT_MIN, INT_MIN + 1]` the left recursive call of `helper` is on
`[INT_MIN, INT_MAX]`, so no budget is enough. -/
theorem helperWith_int_min_pair_loops (fuel : Nat) :
    helperWith createReturning fuel INT_MIN (INT_MIN + 1) = .error .outOfFuel := by
  cases fuel with
  | zero => rfl
  | succ fuel =>
    have h1 : ¬ INT_MIN + 1 < INT_MIN := by decide
    have h2 : ¬ INT_MIN + 1 = INT_MIN := by decide
    have hm : wrapInt (INT_MIN + Int.tdiv (wrapInt (INT_MIN + 1 - INT_MIN)) 2) = INT_MIN := by
      decide
    have hm1 : wrapInt (INT_MIN - 1) = INT_MAX := by decide
    simp only [helperWith, h1, h2, if_false, hm, hm1, helperWith_full_range_loops,
      createReturning, bind, Except.bind]

/-- The function `helper` as written gives no tree on a non-empty range: the first thing it
does there is to make a node with `createTreeNode`. -/
theorem helper_no_value (fuel : Nat) (s e : Int) (h : s ≤ e) (t : Tree) :
    helper fuel s e ≠ .ok t := by
  cases fuel with
  | zero => simp [helper, helperWith]
  | succ fuel =>
    have h1 : ¬ e < s := by omega
    by_cases h2 : e = s
    · simp [helper, helperWith, h2, createTreeNode]
    · simp [helper, helperWith, h1, h2, createTreeNode, bind, Except.bind]

/-- With `root` returned at the closing brace, deleting from a BST-ordered tree the value
of its leftmost node takes that node out and puts its right subtree in its place. -/
theorem treeDeleteWith_min (t : Tree) (hb : isBST t) (m : Int) (q : Tree)
    (hf : findMinSuccessor t = .node .nil m q) :
    treeDeleteWith returnRoot t m = .ok (removeLeftmost t) := by
  induction t with
  | nil => simp [findMinSuccessor] at hf
  | node l n r ihl _ =>
    cases l with
    | nil =>
      simp only [findMinSuccessor, Tree.node.injEq, true_and] at hf
      rw [← hf.1, treeDeleteWith_eq_nil_left]
      rfl
    | node ll ln lr =>
      rw [findMinSuccessor] at hf
      obtain ⟨h1, _, h3, _⟩ := hb
      obtain ⟨m1, q1, rest, hf1, hi⟩ := findMinSuccessor_spec (.node ll ln lr) (by simp)
      have hm : m1 = m := by rw [hf] at hf1; injection hf1 with _ h _; exact h.symm
      have hlt : n > m := by
        apply h1
        rw [hi, hm]
        simp
      rw [treeDeleteWith_gt _ _ _ _ _ hlt, ihl h3 hf]
      rfl

/-- The leftmost node is reached from the root along `left` links. -/
theorem findMinSuccessor_descend (t : Tree) : ∃ k, descendLeft k t = findMinSuccessor t := by
  induction t with
  | nil => exact ⟨0, rfl⟩
  | node l n r ihl _ =>
    cases l with
    | nil => exact ⟨0, rfl⟩
    | node ll ln lr =>
      obtain ⟨k, hk⟩ := ihl
      exact ⟨k + 1, by rw [descendLeft, hk, findMinSuccessor]⟩

/-- With `root` returned at the closing brace, deleting the root value of a BST-ordered
tree whose root has two children gives the root the smallest key of the right subtree,
keeps the left subtree, and takes the leftmost node out of the right subtree. -/
theorem treeDeleteWith_two_children (ll : Tree) (ln : Int) (lr : Tree) (v : Int) (rl : Tree)
    (rn : Int) (rr : Tree) (hb : isBST (.node (.node ll ln lr) v (.node rl rn rr))) :
    ∃ m q, findMinSuccessor (.node rl rn rr) = .node .nil m q ∧
      (∀ x ∈ inorder (.node rl rn rr), m ≤ x) ∧
      treeDeleteWith returnRoot (.node rl rn rr) m = .ok (removeLeftmost (.node rl rn rr)) ∧
      treeDeleteWith returnRoot (.node (.node ll ln lr) v (.node rl rn rr)) v
        = .ok (.node (.node ll ln lr) m (removeLeftmost (.node rl rn rr))) := by
  obtain ⟨_, _, _, h4⟩ := hb
  obtain ⟨m, q, rest, hf, hi⟩ := findMinSuccessor_spec (.node rl rn rr) (by simp)
  have hd := treeDeleteWith_min _ h4 m q hf
  refine ⟨m, q, hf, fun x hx => ?_, hd, ?_⟩
  · have hs := isBST_sorted _ h4
    rw [hi] at hs hx
    rcases List.mem_cons.mp hx with rfl | hx
    · exact le_refl _
    · exact (List.pairwise_cons.mp hs).1 x hx
  · rw [treeDeleteWith_eq_two, hf]
    simp only [readN, bind, Except.bind, hd, pure, Except.pure]

theorem powerLoop_two (n : Nat) : ∀ p : Int, 0 ≤ p → p * 2 ^ n < 9223372036854775808 →
    powerLoop 2 n p = p * 2 ^ n := by
  induction n with
  | zero => intro p _ _; simp [powerLoop]
  | succ n ih =>
    intro p hp hlt
    have h1 : (1 : Int) ≤ 2 ^ n := one_le_pow₀ (by norm_num)
    have h2 : p * 2 ≤ p * 2 ^ (n + 1) := by
      rw [pow_succ, ← mul_assoc]
      calc p * 2 = p * 1 * 2 := by ring
        _ ≤ p * 2 ^ n * 2 := by
          apply mul_le_mul_of_nonneg_right _ (by norm_num)
          exact mul_le_mul_of_nonneg_left h1 hp
    have hw : wrapLong (p * 2) = p * 2 := by
      unfold wrapLong
      omega
    rw [powerLoop, hw, ih (p * 2) (by omega) (by rw [pow_succ] at hlt; linarith)]
    ring

/-- For a size parameter from 0 to 30 the variable `totalNodes` holds `2^(k+1) - 1`, and the
tree `helper(0, totalNodes)` covers the keys `0, ..., totalNodes`, one node more than
`totalNodes`; the constructor hands back its node. -/
theorem seedTreeWith_size (create : Int → TreeRes) (hc : ∀ n, create n = .ok (newNode n))
    (k : Nat) (hk : k ≤ 30) (fuel : Nat) (hf : 2 ^ (k + 1) < fuel) :
    totalNodes k = 2 ^ (k + 1) - 1 ∧
    ∃ t, seedTreeWith create fuel k = .ok t ∧ size t = 2 ^ (k + 1) ∧
      inorder t = intRange 0 (2 ^ (k + 1)) := by
  have hN : (2 : Nat) ^ (k + 1) ≤ 2 ^ 31 := Nat.pow_le_pow_right (by norm_num) (by omega)
  have hN1 : 1 ≤ (2 : Nat) ^ (k + 1) := Nat.one_le_two_pow
  have hcast : ((2 ^ (k + 1) : Nat) : Int) = (2 : Int) ^ (k + 1) := by push_cast; rfl
  generalize hg : (2 : Nat) ^ (k + 1) = N at hN hN1 hcast hf
  norm_num at hN
  have hpow : power 2 (wrapInt (wrapLong ((k : Int) + 1))) = (N : Int) := by
    have e1 : wrapInt (wrapLong ((k : Int) + 1)) = (k : Int) + 1 := by
      unfold wrapInt wrapLong; omega
    have e2 : ((k : Int) + 1).toNat = k + 1 := by omega
    rw [e1, power, e2, powerLoop_two (k + 1) 1 (by norm_num) (by rw [one_mul, ← hcast]; omega),
      one_mul, hcast]
  have htn : totalNodes k = (N : Int) - 1 := by
    unfold totalNodes
    rw [hpow]
    unfold wrapLong
    omega
  refine ⟨by rw [htn, hcast], ?_⟩
  have hw : wrapInt (totalNodes k) = (N : Int) - 1 := by
    rw [htn]; unfold wrapInt; omega
  obtain ⟨t, ht, hi⟩ := helperWith_range create hc fuel 0 ((N : Int) - 1) (by decide)
    (by unfold INT_MAX; omega) (by unfold INT_MAX; omega) (by omega) (by omega)
  have e3 : ((N : Int) - 1 - 0 + 1).toNat = N := by omega
  rw [e3] at hi
  refine ⟨t, by rw [seedTreeWith, hw, ht], ?_, hi⟩
  rw [size_eq_length, hi, intRange_length]

/-- Every tree that `helper` returns on a range not starting at `INT_MIN` holds at each node
the midpoint of the range of that node, with a right subtree as large as the left one or
one node larger; the constructor hands back its node. -/
theorem helperWith_balanced (create : Int → TreeRes) (hc : ∀ n, create n = .ok (newNode n))
    (fuel : Nat) : ∀ s e : Int, INT_MIN < s → e ≤ INT_MAX → e - s ≤ INT_MAX → s ≤ e + 1 →
      (e - s + 1).toNat < fuel →
      ∀ t, helperWith create fuel s e = .ok t → balancedOn t s e := by
  induction fuel with
  | zero => intro s e _ _ _ _ hf; omega
  | succ fuel ih =>
    intro s e hs he hd hse hf t ht
    by_cases h1 : e < s
    · rw [helperWith_empty create fuel s e h1] at ht
      injection ht with ht
      subst ht
      trivial
    by_cases h2 : e = s
    · subst h2
      simp only [helperWith, lt_irrefl, if_false, if_true, hc] at ht
      injection ht with ht
      subst ht
      simp [newNode, balancedOn, size]
    have hs1 := hs
    have he1 := he
    have hd1 := hd
    unfold INT_MIN at hs1
    unfold INT_MAX at he1 hd1
    have hw : wrapInt (e - s) = e - s := wrapInt_of_isInt (by unfold isInt INT_MIN INT_MAX; omega)
    have hdiv : Int.tdiv (e - s) 2 = (e - s) / 2 := Int.tdiv_eq_ediv (by omega) (by omega)
    have hm : wrapInt (s + Int.tdiv (wrapInt (e - s)) 2) = s + (e - s) / 2 := by
      rw [hw, hdiv]
      exact wrapInt_of_isInt (by unfold isInt INT_MIN INT_MAX; omega)
    have hm1 : wrapInt (s + (e - s) / 2 - 1) = s + (e - s) / 2 - 1 :=
      wrapInt_of_isInt (by unfold isInt INT_MIN INT_MAX; omega)
    have hm2 : wrapInt (s + (e - s) / 2 + 1) = s + (e - s) / 2 + 1 :=
      wrapInt_of_isInt (by unfold isInt INT_MIN INT_MAX; omega)
    obtain ⟨l, hl, hil⟩ := helperWith_range create hc fuel s (s + (e - s) / 2 - 1)
      (by unfold INT_MIN; omega) (by unfold INT_MAX; omega) (by unfold INT_MAX; omega)
      (by omega) (by omega)
    obtain ⟨r, hr, hir⟩ := helperWith_range create hc fuel (s + (e - s) / 2 + 1) e
      (by unfold INT_MIN; omega) (by unfold INT_MAX; omega) (by unfold INT_MAX; omega)
      (by omega) (by omega)
    have hbl := ih s (s + (e - s) / 2 - 1) (by unfold INT_MIN; omega) (by unfold INT_MAX; omega)
      (by unfold INT_MAX; omega) (by omega) (by omega) l hl
    have hbr := ih (s + (e - s) / 2 + 1) e (by unfold INT_MIN; omega) (by unfold INT_MAX; omega)
      (by unfold INT_MAX; omega) (by omega) (by omega) r hr
    simp only [helperWith, h1, h2, if_false, hm, hm1, hm2, hc, hl, hr, bind, Except.bind,
      pure, Except.pure, newNode, setLeft, setRight] at ht
    injection ht with ht
    subst ht
    have sl : size l = (s + (e - s) / 2 - 1 - s + 1).toNat := by
      rw [size_eq_length, hil, intRange_length]
    have sr : size r = (e - (s + (e - s) / 2 + 1) + 1).toNat := by
      rw [size_eq_length, hir, intRange_length]
    refine ⟨rfl, ?_, hbl, hbr⟩
    rw [sl, sr]
    omega

/-! ## Sums and positions when both returns are in place -/

theorem allInt_iff (t : Tree) : allInt t ↔ ∀ k ∈ inorder t, isInt k := by
  induction t with
  | nil => simp [allInt, inorder]
  | node l n r ihl ihr =>
    simp only [allInt, inorder, List.mem_append, List.mem_cons, ihl, ihr]
    constructor
    · rintro ⟨h1, h2, h3⟩ k (hk | rfl | hk)
      · exact h2 k hk
      · exact h1
      · exact h3 k hk
    · intro h
      exact ⟨h n (Or.inr (Or.inl rfl)), fun k hk => h k (Or.inl hk),
        fun k hk => h k (Or.inr (Or.inr hk))⟩

theorem sum_keys (t : Tree) : (keys t).sum = (inorder t).sum := by
  simp [keys]

theorem sumTree_eq_wrap_sum (t : Tree) (h : allInt t) :
    sumTree t = .ok (wrapInt (inorder t).sum) := by
  cases t with
  | nil => rfl
  | node l n r =>
    rw [sumTree, sumTreeHelper_eq_foldSum _ (by simp) h, foldSum_eq_wrap_sum]

/-- Sum correctness over a sequence of operations, the constructor handing back its node
and `root` being returned at the closing brace: the run gives a tree, and its `sumTree` is
the sum of the start tree plus the inserted values minus the values deleted while
present, in `int` arithmetic. -/
theorem runOpsWith_sum (create : Int → TreeRes) (hc : ∀ n, create n = .ok (newNode n))
    (ops : List Op) : ∀ t : Tree, isBST t → allInt t → (∀ op ∈ ops, isInt (opValue op)) →
      ∃ t1, runOpsWith create returnRoot t ops = .ok t1 ∧
        sumTree t1 = .ok (wrapInt ((inorder t).sum + netSum create returnRoot t ops)) := by
  have main : ∀ (ops : List Op) (t : Tree), isBST t → allInt t →
      (∀ op ∈ ops, isInt (opValue op)) →
      ∃ t1, runOpsWith create returnRoot t ops = .ok t1 ∧ allInt t1 ∧
        (inorder t1).sum = (inorder t).sum + netSum create returnRoot t ops := by
    intro ops
    induction ops with
    | nil => intro t _ ha _; exact ⟨t, rfl, ha, by simp [netSum]⟩
    | cons op ops ih =>
      intro t hb ha hv
      have hv1 : ∀ op1 ∈ ops, isInt (opValue op1) := fun o ho => hv o (by simp [ho])
      cases op with
      | insert v =>
        obtain ⟨t1, e1, _, k1, _, b1, _⟩ := treeInsertWith_spec create hc t v
        have ha1 : allInt t1 := by
          rw [allInt_iff]
          intro k hk
          have : k ∈ v ::ₘ keys t := k1 ▸ mem_keys.mpr hk
          rcases Multiset.mem_cons.mp this with rfl | hk1
          · exact hv (.insert k) (by simp)
          · exact (allInt_iff t).mp ha k (mem_keys.mp hk1)
        obtain ⟨t2, e2, a2, s2⟩ := ih t1 (b1 hb) ha1 hv1
        refine ⟨t2, by simp only [runOpsWith, applyOpWith, e1, bind, Except.bind, e2], a2, ?_⟩
        have hs : (inorder t1).sum = v + (inorder t).sum := by
          rw [← sum_keys, k1, Multiset.sum_cons, sum_keys]
        simp only [netSum, e1]
        rw [s2, hs]
        ring
      | delete v =>
        obtain ⟨t1, e1, sub1, abs1, b1⟩ := treeDeleteWith_returnRoot_spec t v
        have ha1 : allInt t1 := by
          rw [allInt_iff]
          intro k hk
          exact (allInt_iff t).mp ha k (sub1 k hk)
        obtain ⟨t2, e2, a2, s2⟩ := ih t1 (b1 hb).1 ha1 hv1
        refine ⟨t2, by simp only [runOpsWith, applyOpWith, e1, bind, Except.bind, e2], a2, ?_⟩
        simp only [netSum, e1]
        rw [s2]
        by_cases hm : v ∈ inorder t
        · have hs : v + (inorder t1).sum = (inorder t).sum := by
            rw [← sum_keys, (b1 hb).2, ← sum_keys]
            exact Multiset.sum_erase (mem_keys.mpr hm)
          rw [if_pos hm]
          linarith
        · rw [if_neg hm, abs1 hm]
          ring
  intro t hb ha hv
  obtain ⟨t1, e1, a1, s1⟩ := main ops t hb ha hv
  exact ⟨t1, e1, by rw [sumTree_eq_wrap_sum t1 a1, s1]⟩

theorem treeInsertWith_lt (create : Int → TreeRes) (l : Tree) (n : Int) (r : Tree) (v : Int)
    (h : v < n) :
    treeInsertWith create (.node l n r) v
      = (treeInsertWith create l v >>= fun l1 => pure (.node l1 n r)) := by
  cases l with
  | nil =>
    show treeInsertHelperWith create (.node .nil n r) v = _
    rw [treeInsertHelperWith_lt_nil _ _ _ _ h]
    simp only [treeInsertWith]
    cases create v <;> rfl
  | node ll ln lr =>
    show treeInsertHelperWith create (.node (.node ll ln lr) n r) v = _
    rw [treeInsertHelperWith_lt_node _ _ _ _ _ _ _ h]
    rfl

theorem treeInsertWith_ge (create : Int → TreeRes) (l : Tree) (n : Int) (r : Tree) (v : Int)
    (h : ¬ v < n) :
    treeInsertWith create (.node l n r) v
      = (treeInsertWith create r v >>= fun r1 => pure (.node l n r1)) := by
  cases r with
  | nil =>
    show treeInsertHelperWith create (.node l n .nil) v = _
    rw [treeInsertHelperWith_ge_nil _ _ _ _ h]
    simp only [treeInsertWith]
    cases create v <;> rfl
  | node rl rn rr =>
    show treeInsertHelperWith create (.node l n (.node rl rn rr)) v = _
    rw [treeInsertHelperWith_ge_node _ _ _ _ _ _ _ h]
    rfl

theorem subtreeAt_keys : ∀ (p : List Bool) (t x : Tree), subtreeAt t p = some x →
    ∀ k ∈ inorder x, k ∈ inorder t := by
  intro p
  induction p with
  | nil => intro t x h k hk; simp only [subtreeAt, Option.some.injEq] at h; rw [h]; exact hk
  | cons b p ih =>
    intro t x h k hk
    cases t with
    | nil => simp [subtreeAt] at h
    | node l n r =>
      rw [inorder, List.mem_append, List.mem_cons]
      cases b with
      | false => exact Or.inl (ih l x (by simpa [subtreeAt] using h) k hk)
      | true => exact Or.inr (Or.inr (ih r x (by simpa [subtreeAt] using h) k hk))

/-- Insertion keeps every node where it is and with its value, the constructor handing back
its node. -/
theorem treeInsertWith_keeps_nodes (create : Int → TreeRes)
    (hc : ∀ n, create n = .ok (newNode n)) (v : Int) (t : Tree) :
    ∀ t1, treeInsertWith create t v = .ok t1 →
      ∀ (q : List Bool) (a : Tree) (k : Int) (b : Tree), subtreeAt t q = some (.node a k b) →
        ∃ a1 b1, subtreeAt t1 q = some (.node a1 k b1) := by
  induction t with
  | nil =>
    intro t1 _ q a k b hq
    cases q <;> simp [subtreeAt] at hq
  | node l n r ihl ihr =>
    intro t1 ht q a k b hq
    by_cases h : v < n
    · obtain ⟨l1, e1, _⟩ := treeInsertWith_spec create hc l v
      rw [treeInsertWith_lt _ _ _ _ _ h, e1] at ht
      injection ht with ht
      subst ht
      cases q with
      | nil =>
        simp only [subtreeAt, Option.some.injEq, Tree.node.injEq] at hq
        exact ⟨l1, r, by rw [subtreeAt, hq.2.1]⟩
      | cons d q =>
        cases d with
        | false => exact ihl l1 e1 q a k b (by simpa [subtreeAt] using hq)
        | true => exact ⟨a, b, by simpa [subtreeAt] using hq⟩
    · obtain ⟨r1, e1, _⟩ := treeInsertWith_spec create hc r v
      rw [treeInsertWith_ge _ _ _ _ _ h, e1] at ht
      injection ht with ht
      subst ht
      cases q with
      | nil =>
        simp only [subtreeAt, Option.some.injEq, Tree.node.injEq] at hq
        exact ⟨l, r1, by rw [subtreeAt, hq.2.1]⟩
      | cons d q =>
        cases d with
        | false => exact ⟨a, b, by simpa [subtreeAt] using hq⟩
        | true => exact ihr r1 e1 q a k b (by simpa [subtreeAt] using hq)

/-- Duplicate handling, the constructor handing back its node: when a node `x` of a
BST-ordered tree holds `v`, inserting `v` leaves `x` at its position with its value and its
left subtree, and the right subtree of `x` becomes the result of inserting `v` into it. -/
theorem treeInsertWith_duplicate (create : Int → TreeRes)
    (hc : ∀ n, create n = .ok (newNode n)) (v : Int) (xl xr : Tree) :
    ∀ (p : List Bool) (t : Tree), isBST t → subtreeAt t p = some (.node xl v xr) →
      ∃ t1 xr1, treeInsertWith create t v = .ok t1 ∧
        treeInsertWith create xr v = .ok xr1 ∧ keys xr1 = v ::ₘ keys xr ∧
        subtreeAt t1 p = some (.node xl v xr1) := by
  intro p
  induction p with
  | nil =>
    intro t _ hx
    simp only [subtreeAt, Option.some.injEq] at hx
    subst hx
    obtain ⟨xr1, e1, _, k1, _⟩ := treeInsertWith_spec create hc xr v
    refine ⟨.node xl v xr1, xr1, ?_, e1, k1, rfl⟩
    rw [treeInsertWith_ge _ _ _ _ _ (lt_irrefl v), e1]
    rfl
  | cons d p ih =>
    intro t hb hx
    cases t with
    | nil => simp [subtreeAt] at hx
    | node l n r =>
      obtain ⟨h1, h2, h3, h4⟩ := hb
      cases d with
      | false =>
        have hx1 : subtreeAt l p = some (.node xl v xr) := by simpa [subtreeAt] using hx
        have hv : v < n := h1 v (subtreeAt_keys p l _ hx1 v (by simp [inorder]))
        obtain ⟨l1, xr1, e1, e2, k2, s1⟩ := ih l h3 hx1
        refine ⟨.node l1 n r, xr1, ?_, e2, k2, by simpa [subtreeAt] using s1⟩
        rw [treeInsertWith_lt _ _ _ _ _ hv, e1]
        rfl
      | true =>
        have hx1 : subtreeAt r p = some (.node xl v xr) := by simpa [subtreeAt] using hx
        have hv : ¬ v < n := not_lt.mpr (h2 v (subtreeAt_keys p r _ hx1 v (by simp [inorder])))
        obtain ⟨r1, xr1, e1, e2, k2, s1⟩ := ih r h4 hx1
        refine ⟨.node l n r1, xr1, ?_, e2, k2, by simpa [subtreeAt] using s1⟩
        rw [treeInsertWith_ge _ _ _ _ _ hv, e1]
        rfl

/-! ## The claims, continued -/

/-- C14, on the code as written.  The function `createTreeNode` builds the leaf holding `n`
and then ends without a `return` statement: for `n = 5`, and for every `n`, the caller
receives no node, where the claim has the new leaf. -/
theorem createTreeNode_returns_nothing :
    createTreeNode 5 = .error .noReturn ∧ (∀ (n : Int) (t : Tree), createTreeNode n ≠ .ok t) ∧
    newNode 5 = .node .nil 5 .nil := by
  refine ⟨rfl, fun n t h => ?_, rfl⟩
  simp [createTreeNode] at h

/-- C17, on the code as written.  The tree 5(3, 8(6, -)) is BST-ordered and its root 5 has
two children.  Deleting 5 copies the successor value 6 into the root and calls
`treeDelete` on 8(6, -) with 6, which takes the branch `root->n > value` and ends without a
`return`: the caller receives no tree, where the claim has 6(3, 8).  On 5(3, 8), where the
successor is the root of the right subtree, the result is 8(3, -) as the claim says. -/
theorem treeDelete_two_children_no_tree :
    isBST (.node (.node .nil 3 .nil) 5 (.node (.node .nil 6 .nil) 8 .nil)) ∧
    treeDelete (.node (.node .nil 3 .nil) 5 (.node (.node .nil 6 .nil) 8 .nil)) 5
      = .error .noReturn ∧
    treeDelete (.node (.node .nil 3 .nil) 5 (.node .nil 8 .nil)) 5
      = .ok (.node (.node .nil 3 .nil) 8 .nil) ∧
    inorder (.node (.node .nil 3 .nil) 8 .nil) = [3, 8] := by
  decide

/-- C18.  For the empty tree `findMinSuccessor` returns the empty tree.  For a non-empty
BST-ordered tree it returns a node of the tree that is reached from the root along `left`
links and has no left child; the value of that node is the first element of the in-order
traversal and is `<=` every key of the tree. -/
theorem findMinSuccessor_min (r : Tree) (hne : r ≠ .nil) (hb : isBST r) :
    findMinSuccessor .nil = .nil ∧
    ∃ m q, findMinSuccessor r = .node .nil m q ∧
      (∃ k, descendLeft k r = .node .nil m q) ∧
      (inorder r).head? = some m ∧
      (∀ x ∈ inorder r, m ≤ x) := by
  refine ⟨rfl, ?_⟩
  obtain ⟨m, q, rest, hf, hi⟩ := findMinSuccessor_spec r hne
  obtain ⟨k, hk⟩ := findMinSuccessor_descend r
  refine ⟨m, q, hf, ⟨k, hk.trans hf⟩, by rw [hi]; rfl, fun x hx => ?_⟩
  have hs := isBST_sorted r hb
  rw [hi] at hs hx
  rcases List.mem_cons.mp hx with rfl | hx
  · exact le_refl _
  · exact (List.pairwise_cons.mp hs).1 x hx

/-- C18 at the tree 5(3(1, -), 8): the node returned is the leaf 1. -/
theorem findMinSuccessor_min_witness :
    findMinSuccessor (.node (.node (.node .nil 1 .nil) 3 .nil) 5 (.node .nil 8 .nil))
      = .node .nil 1 .nil ∧
    ∃ m q, findMinSuccessor (.node (.node (.node .nil 1 .nil) 3 .nil) 5 (.node .nil 8 .nil))
        = .node .nil m q ∧
      (∃ k, descendLeft k (.node (.node (.node .nil 1 .nil) 3 .nil) 5 (.node .nil 8 .nil))
        = .node .nil m q) ∧
      (inorder (.node (.node (.node .nil 1 .nil) 3 .nil) 5 (.node .nil 8 .nil))).head? = some m ∧
      (∀ x ∈ inorder (.node (.node (.node .nil 1 .nil) 3 .nil) 5 (.node .nil 8 .nil)), m ≤ x) :=
  ⟨by decide,
    (findMinSuccessor_min (.node (.node (.node .nil 1 .nil) 3 .nil) 5 (.node .nil 8 .nil))
      (by decide) (by decide)).2⟩

/-- C19.  When the root holds the value to delete and has no left child, `treeDelete`
returns the right subtree of the root as it is (the empty tree when the root is a leaf);
when the root has a left child and no right child, it returns the left subtree as it is. -/
theorem treeDelete_root_missing_child (v : Int) (r ll lr : Tree) (ln : Int) :
    treeDelete (.node .nil v r) v = .ok r ∧
    treeDelete (.node .nil v .nil) v = .ok .nil ∧
    treeDelete (.node (.node ll ln lr) v .nil) v = .ok (.node ll ln lr) :=
  ⟨treeDeleteWith_eq_nil_left _ _ _, treeDeleteWith_eq_nil_left _ _ _,
    treeDeleteWith_eq_nil_right _ _ _ _ _⟩

/-- C13, on the code as written.  For the size parameter 1 the variable `totalNodes` holds
`2^2 - 1 = 3`.  The seed tree `helper(0, 3)` is never handed to `main`, because
`createTreeNode` ends without a `return`; and when the constructor hands back its node, the
tree covers the keys 0, 1, 2, 3: four nodes, one more than `totalNodes`. -/
theorem seedTree_node_count :
    totalNodes 1 = 3 ∧
    (∀ fuel t, seedTree fuel 1 ≠ .ok t) ∧
    seedTreeWith createReturning 5 1
      = .ok (.node (.node .nil 0 .nil) 1 (.node .nil 2 (.node .nil 3 .nil))) ∧
    size (.node (.node .nil 0 .nil) 1 (.node .nil 2 (.node .nil 3 .nil))) = 4 := by
  refine ⟨by decide, fun fuel t => ?_, by decide, by decide⟩
  have e : wrapInt (totalNodes 1) = 3 := by decide
  rw [seedTree, seedTreeWith, e]
  exact helper_no_value fuel 0 3 (by decide) t

/-- The shape of the trees `helper` builds when the node constructor hands back the node it
builds.  For `int`s `s <= e` with `INT_MIN < s` and `e - s` an `int`, every budget above
`e - s + 1` makes `helper(s, e)` return a tree in which every node holds the midpoint
`lo + (hi - lo) / 2` of the key range `[lo, hi]` its subtree covers and has a right subtree
with as many nodes as the left subtree or exactly one more. -/
theorem helper_value_balanced (create : Int → TreeRes) (hc : ∀ n, create n = .ok (newNode n))
    (s e : Int) (hs : INT_MIN < s) (hse : s ≤ e) (he : e ≤ INT_MAX) (hd : e - s ≤ INT_MAX)
    (fuel : Nat) (hf : (e - s + 1).toNat < fuel) :
    ∃ t, helperWith create fuel s e = .ok t ∧ balancedOn t s e ∧
      inorder t = intRange s (e - s + 1).toNat := by
  obtain ⟨t, ht, hi⟩ := helperWith_range create hc fuel s e hs he hd (by omega) hf
  exact ⟨t, ht, helperWith_balanced create hc fuel s e hs he hd (by omega) hf t ht, hi⟩

/-! ## The text `printTreeHelper` writes -/

theorem digitChar_inj :
    ∀ d1, d1 < 10 → ∀ d2, d2 < 10 → digitChar d1 = digitChar d2 → d1 = d2 := by
  decide

theorem digitChar_ne_space : ∀ d, d < 10 → digitChar d ≠ Char.ofNat 32 := by decide

theorem digitChar_ne_minus : ∀ d, d < 10 → digitChar d ≠ Char.ofNat 45 := by decide

theorem map_digitChar_inj : ∀ u v : List Nat, (∀ d ∈ u, d < 10) → (∀ d ∈ v, d < 10) →
    u.map digitChar = v.map digitChar → u = v := by
  intro u
  induction u with
  | nil => intro v _ _ h; cases v with
    | nil => rfl
    | cons b v => simp at h
  | cons a u ih =>
    intro v hu hv h
    cases v with
    | nil => simp at h
    | cons b v =>
      simp only [List.map_cons, List.cons.injEq] at h
      have hab := digitChar_inj a (hu a (by simp)) b (hv b (by simp)) h.1
      have := ih v (fun d hd => hu d (by simp [hd])) (fun d hd => hv d (by simp [hd])) h.2
      rw [hab, this]

/-- The digits of a numeral: every character is one of the ten digit characters. -/
theorem natDecimal_digits (n : Nat) : ∀ c ∈ natDecimal n, ∃ d, d < 10 ∧ c = digitChar d := by
  intro c hc
  unfold natDecimal at hc
  split_ifs at hc with h0
  · exact ⟨0, by norm_num, by simpa using hc⟩
  · simp only [List.mem_map, List.mem_reverse] at hc
    obtain ⟨d, hd, rfl⟩ := hc
    exact ⟨d, Nat.digits_lt_base (by norm_num) hd, rfl⟩

theorem natDecimal_ne_nil (n : Nat) : natDecimal n ≠ [] := by
  unfold natDecimal
  split_ifs with h0
  · simp
  · simp [Nat.digits_ne_nil_iff_ne_zero, h0]

theorem natDecimal_inj (n m : Nat) (h : natDecimal n = natDecimal m) : n = m := by
  have key : ∀ a b : Nat, a ≠ 0 → natDecimal a = natDecimal b → a = b := by
    intro a b ha hab
    unfold natDecimal at hab
    rw [if_neg ha] at hab
    split_ifs at hab with hb
    · exfalso
      have h1 : (Nat.digits 10 a).reverse.map digitChar = [0].map digitChar := by simpa using hab
      have h2 := map_digitChar_inj _ _
        (fun d hd => Nat.digits_lt_base (by norm_num) (List.mem_reverse.mp hd))
        (by simp) h1
      have h3 : Nat.digits 10 a = [0] := by
        have := congrArg List.reverse h2
        simpa using this
      have h4 := Nat.getLast_digit_ne_zero 10 ha
      simp [h3] at h4
    · have h2 := map_digitChar_inj _ _
        (fun d hd => Nat.digits_lt_base (by norm_num) (List.mem_reverse.mp hd))
        (fun d hd => Nat.digits_lt_base (by norm_num) (List.mem_reverse.mp hd)) hab
      exact Nat.digits_inj_iff.mp (List.reverse_injective h2)
  by_cases hn : n = 0
  · by_cases hm : m = 0
    · rw [hn, hm]
    · exact (key m n hm h.symm).symm
  · exact key n m hn h

theorem intDecimal_no_space (n : Int) : ∀ c ∈ intDecimal n, c ≠ Char.ofNat 32 := by
  intro c hc
  cases n with
  | ofNat k =>
    obtain ⟨d, hd, rfl⟩ := natDecimal_digits k c hc
    exact digitChar_ne_space d hd
  | negSucc k =>
    simp only [intDecimal, List.mem_append] at hc
    rcases hc with hc | hc
    · have : c = Char.ofNat 45 := by simpa using hc
      rw [this]; decide
    · obtain ⟨d, hd, rfl⟩ := natDecimal_digits _ c hc
      exact digitChar_ne_space d hd

theorem intDecimal_inj (n m : Int) (h : intDecimal n = intDecimal m) : n = m := by
  have hhead : ∀ a b : Nat, natDecimal a ≠ "-".toList ++ natDecimal b := by
    intro a b hab
    cases hl : natDecimal a with
    | nil => exact natDecimal_ne_nil a hl
    | cons c cs =>
      obtain ⟨d, hd, hcd⟩ := natDecimal_digits a c (by rw [hl]; simp)
      rw [hl] at hab
      have hc : c = Char.ofNat 45 := by
        have := congrArg List.head? hab
        simpa using this
      exact digitChar_ne_minus d hd (hcd ▸ hc)
  cases n with
  | ofNat a =>
    cases m with
    | ofNat b => simp only [intDecimal] at h; rw [natDecimal_inj a b h]
    | negSucc b => exact absurd h (hhead a (b + 1))
  | negSucc a =>
    cases m with
    | ofNat b => exact absurd h.symm (hhead b (a + 1))
    | negSucc b =>
      simp only [intDecimal] at h
      have := natDecimal_inj _ _ (List.append_cancel_left h)
      have hab : a = b := by omega
      rw [hab]

/-- A text without blanks followed by a blank is read off unambiguously. -/
theorem split_at_space : ∀ u v x y : List Char,
    (∀ c ∈ u, c ≠ Char.ofNat 32) → (∀ c ∈ v, c ≠ Char.ofNat 32) →
    u ++ Char.ofNat 32 :: x = v ++ Char.ofNat 32 :: y → u = v ∧ x = y := by
  intro u
  induction u with
  | nil =>
    intro v x y _ hv h
    cases v with
    | nil => simpa using h
    | cons b v =>
      simp only [List.nil_append, List.cons_append, List.cons.injEq] at h
      exact absurd h.1.symm (hv b (by simp))
  | cons a u ih =>
    intro v x y hu hv h
    cases v with
    | nil =>
      simp only [List.nil_append, List.cons_append, List.cons.injEq] at h
      exact absurd h.1 (hu a (by simp))
    | cons b v =>
      simp only [List.cons_append, List.cons.injEq] at h
      obtain ⟨h1, h2⟩ := ih v x y (fun c hc => hu c (by simp [hc]))
        (fun c hc => hv c (by simp [hc])) h.2
      exact ⟨by rw [h.1, h1], h2⟩

/-- The text of a tree followed by any text determines the tree and the text after it. -/
theorem printTreeHelper_unique_prefix (t1 : Tree) : ∀ (t2 : Tree) (x y : List Char),
    printTreeHelper t1 ++ x = printTreeHelper t2 ++ y → t1 = t2 ∧ x = y := by
  induction t1 with
  | nil =>
    intro t2 x y h
    cases t2 with
    | nil => exact ⟨rfl, List.append_cancel_left h⟩
    | node l2 n2 r2 =>
      simp [printTreeHelper] at h
  | node l1 n1 r1 ihl ihr =>
    intro t2 x y h
    cases t2 with
    | nil => simp [printTreeHelper] at h
    | node l2 n2 r2 =>
      simp only [printTreeHelper, List.append_assoc] at h
      have h1 := List.append_cancel_left h
      have hsp : " ".toList = [Char.ofNat 32] := rfl
      rw [hsp, List.singleton_append, List.singleton_append] at h1
      obtain ⟨hn, h2⟩ := split_at_space _ _ _ _ (intDecimal_no_space n1)
        (intDecimal_no_space n2) h1
      obtain ⟨hl, h3⟩ := ihl l2 _ _ h2
      obtain ⟨hr, h4⟩ := ihr r2 _ _ h3
      exact ⟨by rw [intDecimal_inj n1 n2 hn, hl, hr], List.append_cancel_left h4⟩

/-- C20.  The text `printTreeHelper` writes determines the tree: two trees with the same
text have the same shape and the same key at every node. -/
theorem printTreeHelper_injective (t1 t2 : Tree)
    (h : printTreeHelper t1 = printTreeHelper t2) : t1 = t2 := by
  have := printTreeHelper_unique_prefix t1 t2 [] [] (by simpa using h)
  exact this.1

/-- C20 at the trees 5(3, -) and 5(-, 3), which hold the same keys: their texts are
`( 5 ( 3  Null  Null ) Null )` and `( 5  Null ( 3  Null  Null ))`, and they differ. -/
theorem printTreeHelper_injective_witness :
    printTreeHelper (.node (.node .nil 3 .nil) 5 .nil) = "( 5 ( 3  Null  Null ) Null )".toList ∧
    printTreeHelper (.node .nil 5 (.node .nil 3 .nil)) = "( 5  Null ( 3  Null  Null ))".toList ∧
    printTreeHelper (.node (.node .nil 3 .nil) 5 .nil)
      ≠ printTreeHelper (.node .nil 5 (.node .nil 3 .nil)) :=
  ⟨by simp [printTreeHelper, intDecimal, natDecimal, digitChar],
    by simp [printTreeHelper, intDecimal, natDecimal, digitChar],
    fun h => absurd (printTreeHelper_injective _ _ h) (by decide)⟩

/-- C11, on the code as written.  The run `insert 5, insert 3, insert 8` from the empty tree
gives no tree to sum, because `createTreeNode` ends without a `return`.  When insertions
are given their nodes the run gives 5(3, 8) with sum 16 and `delete 5` then gives 8(3, -)
with sum 11, but `insert 5, insert 3, delete 3` gives no tree, because the deletion of 3
takes the branch `root->n > value`, which ends without a `return`; the claim has sum 5. -/
theorem runOps_sum_no_tree :
    runOps .nil [.insert 5, .insert 3, .insert 8] = .error .noReturn ∧
    (runOpsWith createReturning noValue .nil [.insert 5, .insert 3, .insert 8]
      >>= fun t => sumTree t) = .ok 16 ∧
    (runOpsWith createReturning noValue .nil [.insert 5, .insert 3, .insert 8, .delete 5]
      >>= fun t => sumTree t) = .ok 11 ∧
    (runOpsWith createReturning noValue .nil [.insert 5, .insert 3, .delete 3]
      >>= fun t => sumTree t) = .error .noReturn := by
  decide

/-- C12, on the code as written.  The tree 5(3, 8) is BST-ordered and its root holds 5.
Inserting 5 gives the caller no tree in which the new leaf could be located, because the
leaf comes from `createTreeNode`, which ends without a `return`.  When the constructor
hands back its node the result is 5(3, 8(5, -)): the root is in place and the new leaf is
in its right subtree. -/
theorem treeInsert_duplicate_no_tree :
    isBST (.node (.node .nil 3 .nil) 5 (.node .nil 8 .nil)) ∧
    subtreeAt (.node (.node .nil 3 .nil) 5 (.node .nil 8 .nil)) []
      = some (.node (.node .nil 3 .nil) 5 (.node .nil 8 .nil)) ∧
    treeInsert (.node (.node .nil 3 .nil) 5 (.node .nil 8 .nil)) 5 = .error .noReturn ∧
    treeInsertWith createReturning (.node (.node .nil 3 .nil) 5 (.node .nil 8 .nil)) 5
      = .ok (.node (.node .nil 3 .nil) 5 (.node (.node .nil 5 .nil) 8 .nil)) := by
  decide

/-! ## The claims on `helper` -/

/-- C8, on the code as written.  For `s = 0`, `e = 6` the function `helper` makes its first
node with `createTreeNode`, which ends without a `return`: no budget gives the caller a
tree, where the claim has the tree with in-order traversal 0, 1, ..., 6.  When the
constructor hands back its node the tree is 3(1(0, 2), 5(4, 6)), with seven nodes,
in-order traversal 0, 1, ..., 6 and BST order.  For `e < s` the function returns the empty
tree, as the claim says. -/
theorem helper_range_no_tree :
    helper 8 0 6 = .error .noReturn ∧
    (∀ fuel t, helper fuel 0 6 ≠ .ok t) ∧
    helper 1 6 0 = .ok .nil ∧
    helperWith createReturning 8 0 6
      = .ok (.node (.node (.node .nil 0 .nil) 1 (.node .nil 2 .nil)) 3
          (.node (.node .nil 4 .nil) 5 (.node .nil 6 .nil))) ∧
    inorder (.node (.node (.node .nil 0 .nil) 1 (.node .nil 2 .nil)) 3
      (.node (.node .nil 4 .nil) 5 (.node .nil 6 .nil))) = [0, 1, 2, 3, 4, 5, 6] ∧
    size (.node (.node (.node .nil 0 .nil) 1 (.node .nil 2 .nil)) 3
      (.node (.node .nil 4 .nil) 5 (.node .nil 6 .nil))) = 7 ∧
    isBST (.node (.node (.node .nil 0 .nil) 1 (.node .nil 2 .nil)) 3
      (.node (.node .nil 4 .nil) 5 (.node .nil 6 .nil))) := by
  refine ⟨by decide, fun fuel t => helper_no_value fuel 0 6 (by decide) t, by decide,
    by decide, by decide, by decide, by decide⟩

/-- C15, on the code as written.  For `s = 1`, `e = 2`, and for the range `[0, 6]` of the
claim, `helper` makes its first node with `createTreeNode`, which ends without a `return`:
no budget gives the caller a tree whose nodes could be examined.  When the constructor
hands back its node, `helper(1, 2)` is 1(-, 2), and `helper(0, 6)` has the midpoint at
every node, root 3, and three nodes on each side of the root. -/
theorem helper_balanced_no_tree :
    helper 3 1 2 = .error .noReturn ∧
    (∀ fuel t, helper fuel 1 2 ≠ .ok t) ∧
    (∀ fuel t, helper fuel 0 6 ≠ .ok t) ∧
    helperWith createReturning 3 1 2 = .ok (.node .nil 1 (.node .nil 2 .nil)) ∧
    balancedOn (.node .nil 1 (.node .nil 2 .nil)) 1 2 ∧
    helperWith createReturning 8 0 6
      = .ok (.node (.node (.node .nil 0 .nil) 1 (.node .nil 2 .nil)) 3
          (.node (.node .nil 4 .nil) 5 (.node .nil 6 .nil))) ∧
    balancedOn (.node (.node (.node .nil 0 .nil) 1 (.node .nil 2 .nil)) 3
      (.node (.node .nil 4 .nil) 5 (.node .nil 6 .nil))) 0 6 ∧
    size (.node (.node .nil 0 .nil) 1 (.node .nil 2 .nil)) = 3 ∧
    size (.node (.node .nil 4 .nil) 5 (.node .nil 6 .nil)) = 3 := by
  refine ⟨by decide, fun fuel t => helper_no_value fuel 1 2 (by decide) t,
    fun fuel t => helper_no_value fuel 0 6 (by decide) t, by decide, by decide, by decide,
    by decide, by decide, by decide⟩

/-- C16, on the code as written.  For `e == s`, here `helper(3, 3)`, line 172 returns the
value of `createTreeNode(3)`, and `createTreeNode` ends without a `return`: no budget gives
the caller a tree, where the claim has a finite tree; the same holds on `[0, 6]`.  For
`e < s`, here `helper(3, 2)`, the empty tree is returned as claimed.  When the
constructor hands back its node `helper(3, 3)` is the leaf 3, but on
`[INT_MIN, INT_MAX]` the recursion still does not end: `e - s` is -1 in `int` arithmetic,
the midpoint is `INT_MIN`, `m - 1` is `INT_MAX`, and the left call is on the same range. -/
theorem helper_returns_no_tree :
    helper 1 3 3 = .error .noReturn ∧
    (∀ fuel t, helper fuel 3 3 ≠ .ok t) ∧
    (∀ fuel t, helper fuel 0 6 ≠ .ok t) ∧
    helper 1 3 2 = .ok .nil ∧
    helperWith createReturning 1 3 3 = .ok (.node .nil 3 .nil) ∧
    wrapInt (INT_MIN + Int.tdiv (wrapInt (INT_MAX - INT_MIN)) 2) = INT_MIN ∧
    wrapInt (INT_MIN - 1) = INT_MAX ∧
    (∀ fuel, helperWith createReturning fuel INT_MIN INT_MAX = .error .outOfFuel) := by
  refine ⟨by decide, fun fuel t => helper_no_value fuel 3 3 (by decide) t,
    fun fuel t => helper_no_value fuel 0 6 (by decide) t, by decide, by decide, by decide,
    by decide, helperWith_full_range_loops⟩

end TreeBench
